import Mathlib

/-!
Verification development for the covisibility-graph core of a visual-SLAM
keyframe map (KeyFrame methods) and its manifold-optimization numerics
(G2oTypes functions).

Modelling conventions, used uniformly below:

* `KeyFrame*` pointers are modelled by the keyframe id (`mnId : Nat`); the
  id uniquely identifies a keyframe (ids are allocated by a monotone
  counter).  The world's keyframe registry is a function `Nat → Option KF`.
* `std::map` is modelled by a key-sorted association list (`std::map`
  iterates in strictly ascending key order); `std::set` by a sorted
  duplicate-free list.  Pointer ordering inside `std::map<KeyFrame*,_>` /
  `std::set<KeyFrame*>` is modelled by id ordering.
* Mutexes guard the critical sections in the source; the model is the
  sequential semantics of each operation, which is what the claims are
  about.
* C++ `int` weights are modelled by `Int` (no overflow is exercised by any
  theorem below).
-/

namespace OrbSlam3

/-- One keyframe's graph-relevant state (fields of `KeyFrame`).  The id of
the keyframe is the key under which it is stored in the `World`, mirroring
`mnId`. -/
structure KF where
  /-- `mConnectedKeyFrameWeights` : key-sorted association list id ↦ weight. -/
  conn : List (Nat × Int) := []
  /-- `mvpOrderedConnectedKeyFrames`. -/
  orderedKFs : List Nat := []
  /-- `mvOrderedWeights`. -/
  orderedWs : List Int := []
  /-- `mpParent` (NULL ↦ `none`). -/
  parent : Option Nat := none
  /-- `mspChildrens` : sorted duplicate-free list. -/
  children : List Nat := []
  /-- `mspLoopEdges`. -/
  loopEdges : List Nat := []
  /-- `mspMergeEdges`. -/
  mergeEdges : List Nat := []
  /-- `mbNotErase`. -/
  notErase : Bool := false
  /-- `mbToBeErased`. -/
  toBeErased : Bool := false
  /-- `mbBad`. -/
  bad : Bool := false
  /-- `mbFirstConnection`. -/
  firstConnection : Bool := true
  /-- `mvpMapPoints` : one nullable landmark id per feature slot. -/
  mapPoints : List (Option Nat) := []
  /-- id of `mpMap` (`GetMap`). -/
  mapId : Nat := 0
  /-- `mpCamera`, `mpCamera2` (NULL ↦ `none`). -/
  camera : Option Nat := none
  camera2 : Option Nat := none
  /-- `mPrevKF`, `mNextKF`. -/
  prevKF : Option Nat := none
  nextKF : Option Nat := none
  /-- `mvBackupMapPointsId`. -/
  backupMPIds : List Int := []
  /-- `mBackupConnectedKeyFrameIdWeights` (key-sorted). -/
  backupConnIdW : List (Nat × Int) := []
  /-- `mBackupParentId`. -/
  backupParentId : Int := -1
  /-- `mvBackupChildrensId`. -/
  backupChildrenIds : List Nat := []
  /-- `mvBackupLoopEdgesId`. -/
  backupLoopIds : List Nat := []
  /-- `mvBackupMergeEdgesId`. -/
  backupMergeIds : List Nat := []
  /-- `mnBackupIdCamera`, `mnBackupIdCamera2`. -/
  backupIdCamera : Int := -1
  backupIdCamera2 : Int := -1
  /-- `mBackupPrevKFId`, `mBackupNextKFId`. -/
  backupPrevKFId : Int := -1
  backupNextKFId : Int := -1
  deriving DecidableEq

/-- A landmark (`MapPoint`): bad flag and the ids of the keyframes observing
it (keys of `mObservations`, id-sorted). -/
structure MP where
  bad : Bool := false
  obs : List Nat := []
  deriving DecidableEq

/-- The map/atlas world: keyframe registry, landmark registry and the map's
initial-keyframe id (`Map::GetInitKFid`). -/
structure World where
  kfs : Nat → Option KF
  mps : Nat → Option MP
  initKFid : Nat

/-- Apply `f` to the keyframe stored under id `i` (mutation of one
`KeyFrame` object). -/
def modKF (w : World) (i : Nat) (f : KF → KF) : World :=
  { w with kfs := fun j => if j = i then (w.kfs j).map f else w.kfs j }

/-- Apply `f` to the landmark stored under id `m`. -/
def modMP (w : World) (m : Nat) (f : MP → MP) : World :=
  { w with mps := fun j => if j = m then (w.mps j).map f else w.mps j }

/-- `KeyFrame::isBad` (a dangling id is never queried by the source; the
model answers `false`). -/
def isBad (w : World) (i : Nat) : Bool :=
  match w.kfs i with
  | some k => k.bad
  | none => false

/-- Key-sorted association-list lookup (`std::map::count` / `operator[]`
read). -/
def mapLookup (k : Nat) (l : List (Nat × Int)) : Option Int :=
  (l.find? (fun p => p.1 == k)).map (·.2)

/-- `std::map` insert-or-assign, keeping keys strictly ascending. -/
def mapInsert (k : Nat) (v : Int) : List (Nat × Int) → List (Nat × Int)
  | [] => [(k, v)]
  | (k', v') :: t =>
    if k < k' then (k, v) :: (k', v') :: t
    else if k = k' then (k, v) :: t
    else (k', v') :: mapInsert k v t

/-- `std::map::erase` by key. -/
def mapErase (k : Nat) (l : List (Nat × Int)) : List (Nat × Int) :=
  l.filter (fun p => p.1 ≠ k)

/-- `KFcounter[key]++` : insert with count 1, or increment. -/
def incKey (k : Nat) : List (Nat × Int) → List (Nat × Int)
  | [] => [(k, 1)]
  | (k', v') :: t =>
    if k < k' then (k, 1) :: (k', v') :: t
    else if k = k' then (k', v' + 1) :: t
    else (k', v') :: incKey k t

/-- `std::set` insert, keeping the list strictly ascending. -/
def setInsert (k : Nat) : List Nat → List Nat
  | [] => [k]
  | k' :: t =>
    if k < k' then k :: k' :: t
    else if k = k' then k' :: t
    else k' :: setInsert k t

/-- `std::set::erase`. -/
def setErase (k : Nat) (l : List Nat) : List Nat :=
  l.filter (fun x => x ≠ k)

/-- `KeyFrame::GetWeight this=i, argument=j` : stored weight or 0. -/
def getWeight (w : World) (i j : Nat) : Int :=
  match w.kfs i with
  | some k => (mapLookup j k.conn).getD 0
  | none => 0

/-- Keyframe `b`'s weight map (`mConnectedKeyFrameWeights`), empty when `b`
is unregistered. -/
def getConn (w : World) (b : Nat) : List (Nat × Int) :=
  match w.kfs b with
  | some k => k.conn
  | none => []

/-- Keyframe `b`'s cached ordered covisible vector
(`mvpOrderedConnectedKeyFrames`). -/
def getOrdered (w : World) (b : Nat) : List Nat :=
  match w.kfs b with
  | some k => k.orderedKFs
  | none => []

/-- Keyframe `b`'s parent pointer (`mpParent`), `none` when `b` is
unregistered, `some p` otherwise (with `p` the stored optional parent). -/
def getParent (w : World) (b : Nat) : Option (Option Nat) :=
  (w.kfs b).map (fun k => k.parent)

/-- Keyframe `b`'s children set (`mspChildrens`), `none` when `b` is
unregistered. -/
def getChildren (w : World) (b : Nat) : Option (List Nat) :=
  (w.kfs b).map (fun k => k.children)

/-- Keyframe `b`'s cached ordered weight vector (`mvOrderedWeights`). -/
def getOrderedWs (w : World) (b : Nat) : List Int :=
  match w.kfs b with
  | some k => k.orderedWs
  | none => []

/-- Keyframe `b`'s loop-edge set (`mspLoopEdges`), `none` when `b` is
unregistered. -/
def getLoopEdges (w : World) (b : Nat) : Option (List Nat) :=
  (w.kfs b).map (fun k => k.loopEdges)

/-- Keyframe `b`'s merge-edge set (`mspMergeEdges`), `none` when `b` is
unregistered. -/
def getMergeEdges (w : World) (b : Nat) : Option (List Nat) :=
  (w.kfs b).map (fun k => k.mergeEdges)

/-- The strict-weak order used by `std::sort` on
`std::vector<std::pair<int,KeyFrame*>>` : lexicographic on (weight, id),
with pointer order modelled by id order. -/
def pairLe (p q : Int × Nat) : Prop :=
  p.1 < q.1 ∨ (p.1 = q.1 ∧ p.2 ≤ q.2)

instance : DecidableRel pairLe := fun p q => by
  unfold pairLe; infer_instance

instance : IsTotal (Int × Nat) pairLe := by
  constructor
  intro a b
  rcases lt_trichotomy a.1 b.1 with h | h | h
  · exact Or.inl (Or.inl h)
  · rcases le_total a.2 b.2 with h2 | h2
    · exact Or.inl (Or.inr ⟨h, h2⟩)
    · exact Or.inr (Or.inr ⟨h.symm, h2⟩)
  · exact Or.inr (Or.inl h)

instance : IsTrans (Int × Nat) pairLe := by
  constructor
  intro a b c hab hbc
  rcases hab with h | ⟨h, h2⟩
  · rcases hbc with h' | ⟨h', _⟩
    · exact Or.inl (h.trans h')
    · exact Or.inl (h'.symm ▸ h)
  · rcases hbc with h' | ⟨h', h2'⟩
    · exact Or.inl (h ▸ h')
    · exact Or.inr ⟨h.trans h', h2.trans h2'⟩

/-- The sorted, bad-filtered, reversed pair list built by
`KeyFrame::UpdateBestCovisibles` from a weight map: `vPairs` sorted
ascending by `std::sort`, then traversed with `push_front` into lists,
skipping bad keyframes — i.e. the reverse of the filtered ascending order. -/
def ubcPairs (w : World) (conn : List (Nat × Int)) : List (Int × Nat) :=
  ((List.insertionSort pairLe (conn.map (fun p => (p.2, p.1)))).filter
    (fun p => ¬ isBad w p.2)).reverse

/-- `KeyFrame::UpdateBestCovisibles` on keyframe `i`. -/
def UpdateBestCovisibles (w : World) (i : Nat) : World :=
  match w.kfs i with
  | none => w
  | some kf =>
    let pairs := ubcPairs w kf.conn
    modKF w i (fun k =>
      { k with orderedKFs := pairs.map (·.2), orderedWs := pairs.map (·.1) })

/-- `KeyFrame::AddConnection` on keyframe `i` : upsert the weight for `j`,
then refresh the ordered cache; early-returns (no refresh) when the stored
weight already equals `weight`. -/
def AddConnection (w : World) (i j : Nat) (weight : Int) : World :=
  match w.kfs i with
  | none => w
  | some kf =>
    match mapLookup j kf.conn with
    | none =>
      UpdateBestCovisibles (modKF w i (fun k => { k with conn := mapInsert j weight k.conn })) i
    | some ex =>
      if ex ≠ weight then
        UpdateBestCovisibles (modKF w i (fun k => { k with conn := mapInsert j weight k.conn })) i
      else w

/-- `KeyFrame::EraseConnection` on keyframe `i` : drop the entry for `j` and
refresh the ordered cache, only if an entry existed. -/
def EraseConnection (w : World) (i j : Nat) : World :=
  match w.kfs i with
  | none => w
  | some kf =>
    if (mapLookup j kf.conn).isSome then
      UpdateBestCovisibles (modKF w i (fun k => { k with conn := mapErase j k.conn })) i
    else w

/-- `KeyFrame::GetCovisiblesByWeight` on keyframe `i`.  `std::upper_bound`
with comparator `a > b` on a range partitioned as (≥ wt, then < wt) yields
the partition point, modelled by `takeWhile`; `back()` on an empty weight
vector is undefined behaviour in the source and modelled as 0 (the branch is
dead under the sortedness invariant proved below). -/
def GetCovisiblesByWeight (w : World) (i : Nat) (wt : Int) : List Nat :=
  match w.kfs i with
  | none => []
  | some kf =>
    if kf.orderedKFs = [] then []
    else
      let n := (kf.orderedWs.takeWhile (fun x => wt ≤ x)).length
      if n = kf.orderedWs.length ∧ (kf.orderedWs.getLast?.getD 0) < wt then []
      else kf.orderedKFs.take n

/-- The ordered-cache invariant of a keyframe record: the cached covisible
keyframe vector and weight vector have equal length and the weights are in
non-increasing order. -/
def ordInv (k : KF) : Prop :=
  k.orderedKFs.length = k.orderedWs.length ∧ k.orderedWs.Pairwise (· ≥ ·)

/-- The ordered-cache invariant at slot `i` of a world (vacuous for an
unregistered id). -/
def ordInvAt (w : World) (i : Nat) : Prop :=
  ∀ k, w.kfs i = some k → ordInv k

/-- `KeyFrame::AddChild` on keyframe `i`. -/
def AddChild (w : World) (i c : Nat) : World :=
  modKF w i (fun k => { k with children := setInsert c k.children })

/-- `KeyFrame::EraseChild` on keyframe `i`. -/
def EraseChild (w : World) (i c : Nat) : World :=
  modKF w i (fun k => { k with children := setErase c k.children })

/-- `KeyFrame::ChangeParent` : child `c` adopts parent `p`.  When `p = c`
the source throws `std::invalid_argument` before mutating anything; the
model leaves the world unchanged in that case and every theorem below
excludes it by hypothesis. -/
def ChangeParent (w : World) (c p : Nat) : World :=
  if p = c then w
  else AddChild (modKF w c (fun k => { k with parent := some p })) p c

/-- `KeyFrame::SetNotErase`. -/
def SetNotErase (w : World) (i : Nat) : World :=
  modKF w i (fun k => { k with notErase := true })

/-- `KeyFrame::AddLoopEdge`. -/
def AddLoopEdge (w : World) (i e : Nat) : World :=
  modKF w i (fun k => { k with notErase := true, loopEdges := setInsert e k.loopEdges })

/-- `KeyFrame::AddMergeEdge`. -/
def AddMergeEdge (w : World) (i e : Nat) : World :=
  modKF w i (fun k => { k with notErase := true, mergeEdges := setInsert e k.mergeEdges })

/-- Modelled from the spec: `MapPoint::EraseObservation` is not among the
source files (only its caller `KeyFrame::SetBadFlag` is); per the spec,
"every still-referenced landmark is told this observation is gone" —
modelled as removing the keyframe id from the landmark's observation
list. -/
def EraseObservation (w : World) (m i : Nat) : World :=
  modMP w m (fun mp => { mp with obs := setErase i mp.obs })

/-- The shared-observation tally `KFcounter` built by
`KeyFrame::UpdateConnections` on keyframe `i` (a key-sorted map id ↦
count): for every non-null, non-bad landmark of `i`, every observing
keyframe other than `i` itself that is not bad and lives in the same map is
counted once per shared landmark.  A `some` landmark id that does not
resolve in the registry mirrors the source's null-pointer guard. -/
def KFcounterOf (w : World) (i : Nat) (kf : KF) : List (Nat × Int) :=
  kf.mapPoints.foldl (fun acc omp =>
    match omp with
    | none => acc
    | some mpId =>
      match w.mps mpId with
      | none => acc
      | some mp =>
        if mp.bad then acc
        else mp.obs.foldl (fun acc2 oid =>
          match w.kfs oid with
          | none => acc2
          | some k2 =>
            if oid = i ∨ k2.bad ∨ k2.mapId ≠ kf.mapId then acc2
            else incKey oid acc2) acc) []

/-- The running maximum of `UpdateConnections` (`nmax` / `pKFmax`,
initially `0` / NULL, strict improvement in key order). -/
def ucMax (counter : List (Nat × Int)) : Int × Option Nat :=
  counter.foldl (fun (acc : Int × Option Nat) p =>
    if p.2 > acc.1 then (p.2, some p.1) else acc) (0, none)

/-- The promotion pass of `UpdateConnections` : every neighbor whose tally
reaches the threshold 15 receives `AddConnection(this, tally)` as the tally
map is traversed in key order. -/
def ucPromote (w : World) (i : Nat) (counter : List (Nat × Int)) : World :=
  counter.foldl (fun wa p =>
    if p.2 ≥ 15 then AddConnection wa p.1 i p.2 else wa) w

/-- The final assignment of `UpdateConnections` under the connection lock:
the keyframe's weight map is replaced by the full tally and the ordered
cache by the already-descending promoted pairs. -/
def ucAssign (w2 : World) (i : Nat) (counter : List (Nat × Int))
    (ordered : List (Int × Nat)) : World :=
  modKF w2 i (fun k =>
    { k with conn := counter,
             orderedKFs := ordered.map (·.2),
             orderedWs := ordered.map (·.1) })

/-- The one-time first-connection rule of `UpdateConnections` : a non-root
keyframe that never had a parent adopts the front of its new ordered
covisible vector and registers itself as that keyframe's child. -/
def ucFirstConn (w3 : World) (i : Nat) (first : Bool) (init : Nat)
    (top : Option Nat) : World :=
  if first ∧ i ≠ init then
    match top with
    | some par =>
      AddChild (modKF w3 i (fun k =>
        { k with parent := some par, firstConnection := false })) par i
    | none => w3
  else w3

/-- `KeyFrame::UpdateConnections` on keyframe `i` (the `upParent` argument
only controls logging in the source).  Neighbors whose tally reaches the
threshold 15 are promoted; if none is, the single highest-tally neighbor
(first maximum in key order) is.  The keyframe's own weight map is then
replaced by the full tally, the ordered cache by the descending
(weight, id) order of the promoted pairs, and the one-time
first-connection rule sets the parent to the top ordered neighbor. -/
def UpdateConnections (w : World) (i : Nat) : World :=
  match w.kfs i with
  | none => w
  | some kf =>
    let counter := KFcounterOf w i kf
    if counter = [] then w
    else
      let nmaxP := ucMax counter
      let w1 := ucPromote w i counter
      let vPairs := (counter.filter (fun p => p.2 ≥ 15)).map (fun p => (p.2, p.1))
      let step2 : List (Int × Nat) × World :=
        if vPairs = [] then
          match nmaxP.2 with
          | some pm => ([(nmaxP.1, pm)], AddConnection w1 pm i nmaxP.1)
          | none => ([], w1)
        else (vPairs, w1)
      let ordered := (List.insertionSort pairLe step2.1).reverse
      ucFirstConn (ucAssign step2.2 i counter ordered) i kf.firstConnection w.initKFid
        ((ordered.map (·.2)).head?)

/-- The innermost scan of the spanning-tree update in
`KeyFrame::SetBadFlag` : is `wt` strictly greater than the best weight so
far (`int max = -1` initially)? -/
def fmpBetter (best : Option (Nat × Nat × Int)) (wt : Int) : Bool :=
  match best with
  | some (_, _, m) => wt > m
  | none => wt > -1

/-- One pass of the spanning-tree update loop in `KeyFrame::SetBadFlag` :
scan the (id-ordered) children `ch`, skipping bad ones; for each child `c`,
scan its cached covisible vector; for each entry matching a parent
candidate by id, compare `GetWeight` against the running maximum.  Returns
the selected (child, parent, weight), or `none` when no pair beat the
initial maximum of −1 (`bContinue` stays false). -/
def fmpStep3 (w : World) (c v : Nat) (b3 : Option (Nat × Nat × Int)) (pc : Nat) :
    Option (Nat × Nat × Int) :=
  if v = pc then
    if fmpBetter b3 (getWeight w c v) then some (c, pc, getWeight w c v) else b3
  else b3

/-- The middle scan of the spanning-tree update: one cached covisible `v` of
child `c` is matched against every parent candidate. -/
def fmpStep2 (w : World) (cand : List Nat) (c : Nat) (b2 : Option (Nat × Nat × Int))
    (v : Nat) : Option (Nat × Nat × Int) :=
  cand.foldl (fmpStep3 w c v) b2

/-- The outer scan of the spanning-tree update: one child `c`, skipped when
bad or unregistered, otherwise scanned over its cached covisible vector. -/
def fmpStep1 (w : World) (cand : List Nat) (best : Option (Nat × Nat × Int)) (c : Nat) :
    Option (Nat × Nat × Int) :=
  if isBad w c then best
  else
    match w.kfs c with
    | none => best
    | some kc => kc.orderedKFs.foldl (fmpStep2 w cand c) best

def findMaxPair (w : World) (ch cand : List Nat) : Option (Nat × Nat × Int) :=
  ch.foldl (fmpStep1 w cand) none

/-- The running maximum tracked by `findMaxPair` (`int max = -1`
initially). -/
def bestVal : Option (Nat × Nat × Int) → Int
  | none => -1
  | some (_, _, m) => m

/-- Well-formedness of a `findMaxPair` accumulator: any selected triple
pairs a child of `ch` with a candidate of `cand` and records their stored
weight. -/
def fmpWF (w : World) (ch cand : List Nat) (b : Option (Nat × Nat × Int)) : Prop :=
  ∀ c p m, b = some (c, p, m) → c ∈ ch ∧ p ∈ cand ∧ m = getWeight w c p

/-- Invariant of the spanning-tree reattachment loop of
`KeyFrame::SetBadFlag` over the dying keyframe `i` with original children
`kfch` and former parent `pp` : the remaining children are original ones,
every candidate is `pp` or an already-detached original child, every
original child no longer listed has already received a non-null parent
drawn from `{pp} ∪ kfch`, and the remaining children stay registered. -/
def rlInv (kfch : List Nat) (pp i : Nat) (w' : World) (cand : List Nat) : Prop :=
  ∃ kfi, w'.kfs i = some kfi ∧
    (∀ c ∈ kfi.children, c ∈ kfch) ∧
    (∀ q ∈ cand, (q = pp ∨ q ∈ kfch) ∧ q ∉ kfi.children) ∧
    (∀ c ∈ kfch, c ∉ kfi.children →
      ∃ q, getParent w' c = some (some q) ∧ (q = pp ∨ q ∈ kfch)) ∧
    (∀ c ∈ kfi.children, (w'.kfs c).isSome)

/-- The `while(!mspChildrens.empty())` loop of `KeyFrame::SetBadFlag` on the
dying keyframe `i` : pick the maximal (child, candidate) pair, reparent the
child, add it to the candidate set, erase it from `i`'s children; stop when
no pair is found.  Each iteration removes the chosen child from
`i`'s children, so fuel `|children|` runs the loop to its break. -/
def reparentLoop : Nat → World → Nat → List Nat → World
  | 0, w, _, _ => w
  | fuel+1, w, i, cand =>
    match w.kfs i with
    | none => w
    | some kf =>
      if kf.children = [] then w
      else
        match findMaxPair w kf.children cand with
        | some (c, p, _) =>
          reparentLoop fuel (EraseChild (ChangeParent w c p) i c) i (setInsert c cand)
        | none => w

/-- First phase of `KeyFrame::SetBadFlag` : every keyframe in the dying
keyframe's own weight map (iterated in key order) drops its edge to `i`. -/
def sbfEraseConnections (w : World) (i : Nat) (conn : List (Nat × Int)) : World :=
  conn.foldl (fun wa p => EraseConnection wa p.1 i) w

/-- Second phase of `KeyFrame::SetBadFlag` : every non-null landmark slot
drops the observation by `i`. -/
def sbfEraseObservations (w : World) (i : Nat) (mpl : List (Option Nat)) : World :=
  mpl.foldl (fun wa omp =>
    match omp with
    | some m => EraseObservation wa m i
    | none => wa) w

/-- The fallback loop of `KeyFrame::SetBadFlag` : every child still present
adopts the dying keyframe's former parent `par` (`ChangeParent(NULL)` would
dereference a null parent in the source; the `none` branch records only the
parent write and is excluded by hypotheses). -/
def sbfLeftoverFold (w : World) (par : Option Nat) (leftover : List Nat) : World :=
  leftover.foldl (fun wa c =>
    match par with
    | some p => ChangeParent wa c p
    | none => modKF wa c (fun k => { k with parent := none })) w

/-- The locked tail of `KeyFrame::SetBadFlag` on keyframe `i` : clear `i`'s
weight map and ordered keyframe vector (the source does not clear
`mvOrderedWeights`), greedily reattach the children starting from the
candidate set `{former parent}`, hand the leftovers to the former parent,
drop `i` from its parent's children, and set `bad`. -/
def sbfTree (w2 : World) (i : Nat) : World :=
  match w2.kfs i with
  | none => w2
  | some kf2 =>
    let w3 := modKF w2 i (fun k => { k with conn := [], orderedKFs := [] })
    let cand0 := match kf2.parent with | some p => [p] | none => []
    let w4 := reparentLoop kf2.children.length w3 i cand0
    let leftover := match w4.kfs i with | some k => k.children | none => []
    let w5 := sbfLeftoverFold w4 kf2.parent leftover
    let w6 := match kf2.parent with
      | some p => EraseChild w5 p i
      | none => w5
    modKF w6 i (fun k => { k with bad := true })

/-- `KeyFrame::SetBadFlag` on keyframe `i`.  Root keyframes are a silent
no-op; under an active not-erase guard only the to-be-erased flag is set;
otherwise the two erase phases run and then the locked tree update.
`Map::EraseKeyFrame` / `KeyFrameDatabase::erase` are collaborator
notifications outside the modelled state. -/
def SetBadFlag (w : World) (i : Nat) : World :=
  match w.kfs i with
  | none => w
  | some kf =>
    if i = w.initKFid then w
    else if kf.notErase then modKF w i (fun k => { k with toBeErased := true })
    else sbfTree (sbfEraseObservations (sbfEraseConnections w i kf.conn) i kf.mapPoints) i

/-- `KeyFrame::SetErase` on keyframe `i` : lift the guard only when the
loop-edge set is empty, then honor a pending deferred deletion. -/
def SetErase (w : World) (i : Nat) : World :=
  match w.kfs i with
  | none => w
  | some kf =>
    let w1 := if kf.loopEdges = [] then modKF w i (fun k => { k with notErase := false }) else w
    if kf.toBeErased then SetBadFlag w1 i else w1

/-- `KeyFrame::PreSave` on keyframe `i` : replace every cross-reference by
its id in the backup containers, filtering by membership in the saved
keyframe / landmark / camera sets; absent or unsaved references become
−1. -/
def PreSave (w : World) (i : Nat) (spKF spMP spCam : List Nat) : World :=
  modKF w i (fun kf =>
    { kf with
      backupMPIds := kf.mapPoints.map (fun o =>
        match o with
        | some m => if spMP.contains m then (m : Int) else -1
        | none => -1),
      backupConnIdW := kf.conn.filter (fun p => spKF.contains p.1),
      backupParentId := match kf.parent with
        | some p => if spKF.contains p then (p : Int) else -1
        | none => -1,
      backupChildrenIds := kf.children.filter (fun c => spKF.contains c),
      backupLoopIds := kf.loopEdges.filter (fun c => spKF.contains c),
      backupMergeIds := kf.mergeEdges.filter (fun c => spKF.contains c),
      backupIdCamera := match kf.camera with
        | some c => if spCam.contains c then (c : Int) else -1
        | none => -1,
      backupIdCamera2 := match kf.camera2 with
        | some c => if spCam.contains c then (c : Int) else -1
        | none => -1,
      backupPrevKFId := match kf.prevKF with
        | some p => if spKF.contains p then (p : Int) else -1
        | none => -1,
      backupNextKFId := match kf.nextKF with
        | some p => if spKF.contains p then (p : Int) else -1
        | none => -1 })

/-- `KeyFrame::PostLoad` on keyframe `i`, with the id-to-object dictionaries
modelled as id-to-id functions (`mpKFid`, `mpMPid`, `mpCamId`): the
landmark slots are rebuilt from `mvBackupMapPointsId` (the source indexes
it for every slot up to `N`; the model maps over it, identical when the
backup was written by `PreSave`), the weight map, children, loop and merge
sets are rebuilt by repeated insertion through the dictionaries, the
parent / cameras / temporal neighbors only when their backup id is
resolvable, the four backup containers the source clears are cleared
(`mvBackupMergeEdgesId` is not), and the ordered covisible cache is rebuilt
from the restored weight map. -/
def PostLoad (w : World) (i : Nat) (idKF idMP idCam : Nat → Nat) : World :=
  match w.kfs i with
  | none => w
  | some kf =>
    let kf' := { kf with
      mapPoints := kf.backupMPIds.map (fun bid =>
        if bid ≠ -1 then some (idMP bid.toNat) else none),
      conn := kf.backupConnIdW.foldl (fun acc p => mapInsert (idKF p.1) p.2 acc) [],
      parent := if kf.backupParentId ≥ 0 then some (idKF kf.backupParentId.toNat) else kf.parent,
      children := kf.backupChildrenIds.foldl (fun s c => setInsert (idKF c) s) [],
      loopEdges := kf.backupLoopIds.foldl (fun s c => setInsert (idKF c) s) [],
      mergeEdges := kf.backupMergeIds.foldl (fun s c => setInsert (idKF c) s) [],
      camera := if kf.backupIdCamera ≥ 0 then some (idCam kf.backupIdCamera.toNat) else kf.camera,
      camera2 := if kf.backupIdCamera2 ≥ 0 then some (idCam kf.backupIdCamera2.toNat) else kf.camera2,
      prevKF := if kf.backupPrevKFId ≠ -1 then some (idKF kf.backupPrevKFId.toNat) else kf.prevKF,
      nextKF := if kf.backupNextKFId ≠ -1 then some (idKF kf.backupNextKFId.toNat) else kf.nextKF,
      backupMPIds := [], backupConnIdW := [], backupChildrenIds := [], backupLoopIds := [] }
    UpdateBestCovisibles (modKF w i (fun _ => kf')) i

/-! ### Reprojection helpers (`KeyFrame::ProjectPointDistort` / `ProjectPointUnDistort`)

`float` arithmetic is modelled over `ℚ`.  Division by a zero depth yields
`+inf`/NaN under IEEE and `0` under `ℚ`'s convention; the only theorem below
that exercises a zero denominator is the counterexample, where the source's
control flow also reaches `return true` (NaN fails both bound comparisons). -/

/-- A 3-vector of rationals. -/
def Vec3Q := ℚ × ℚ × ℚ

instance : DecidableEq Vec3Q := by unfold Vec3Q; infer_instance

/-- A 3×3 matrix of rationals, as rows. -/
def Mat3Q := Vec3Q × Vec3Q × Vec3Q

instance : DecidableEq Mat3Q := by unfold Mat3Q; infer_instance

/-- Dot product. -/
def dot3 (a b : Vec3Q) : ℚ := a.1 * b.1 + a.2.1 * b.2.1 + a.2.2 * b.2.2

/-- Matrix–vector product. -/
def matVec (R : Mat3Q) (v : Vec3Q) : Vec3Q := (dot3 R.1 v, dot3 R.2.1 v, dot3 R.2.2 v)

/-- Componentwise vector sum. -/
def addV (a b : Vec3Q) : Vec3Q := (a.1 + b.1, a.2.1 + b.2.1, a.2.2 + b.2.2)

/-- The camera-related `KeyFrame` state read by the reprojection helpers:
pose blocks `mRcw` / `mTcw.translation()`, intrinsics, calibrated image
bounds and the distortion coefficient vector `mDistCoef`. -/
structure KFCam where
  rcw : Mat3Q
  tcw : Vec3Q
  fx : ℚ
  fy : ℚ
  cx : ℚ
  cy : ℚ
  invfx : ℚ
  invfy : ℚ
  mnMinX : ℚ
  mnMinY : ℚ
  mnMaxX : ℚ
  mnMaxY : ℚ
  dist : List ℚ
  deriving DecidableEq

/-- The camera-frame depth `PcZ` of a world point. -/
def camDepth (kf : KFCam) (P : Vec3Q) : ℚ := (addV (matVec kf.rcw P) kf.tcw).2.2

/-- `KeyFrame::ProjectPointDistort` : `none` models `return false`,
`some (u, v)` the final distorted coordinates written to `u`, `v`, `kp`. -/
def ProjectPointDistort (kf : KFCam) (P : Vec3Q) : Option (ℚ × ℚ) :=
  let Pc := addV (matVec kf.rcw P) kf.tcw
  let PcX := Pc.1
  let PcY := Pc.2.1
  let PcZ := Pc.2.2
  if PcZ < 0 then none
  else
    let invz := 1 / PcZ
    let u := kf.fx * PcX * invz + kf.cx
    let v := kf.fy * PcY * invz + kf.cy
    if u < kf.mnMinX ∨ u > kf.mnMaxX then none
    else if v < kf.mnMinY ∨ v > kf.mnMaxY then none
    else
      let x := (u - kf.cx) * kf.invfx
      let y := (v - kf.cy) * kf.invfy
      let r2 := x * x + y * y
      let k1 := kf.dist.getD 0 0
      let k2 := kf.dist.getD 1 0
      let p1 := kf.dist.getD 2 0
      let p2 := kf.dist.getD 3 0
      let k3 := if kf.dist.length = 5 then kf.dist.getD 4 0 else 0
      let xDistort := x * (1 + k1 * r2 + k2 * r2 * r2 + k3 * r2 * r2 * r2)
                    + (2 * p1 * x * y + p2 * (r2 + 2 * x * x))
      let yDistort := y * (1 + k1 * r2 + k2 * r2 * r2 + k3 * r2 * r2 * r2)
                    + (p1 * (r2 + 2 * y * y) + 2 * p2 * x * y)
      some (xDistort * kf.fx + kf.cx, yDistort * kf.fy + kf.cy)

/-- `KeyFrame::ProjectPointUnDistort`. -/
def ProjectPointUnDistort (kf : KFCam) (P : Vec3Q) : Option (ℚ × ℚ) :=
  let Pc := addV (matVec kf.rcw P) kf.tcw
  let PcX := Pc.1
  let PcY := Pc.2.1
  let PcZ := Pc.2.2
  if PcZ < 0 then none
  else
    let invz := 1 / PcZ
    let u := kf.fx * PcX * invz + kf.cx
    let v := kf.fy * PcY * invz + kf.cy
    if u < kf.mnMinX ∨ u > kf.mnMaxX then none
    else if v < kf.mnMinY ∨ v > kf.mnMaxY then none
    else some (u, v)

/-- The pinhole image-plane coordinate `u = fx * PcX * invz + cx` computed
by both reprojection helpers before their bound checks. -/
def pinholeU (kf : KFCam) (P : Vec3Q) : ℚ :=
  kf.fx * (addV (matVec kf.rcw P) kf.tcw).1 * (1 / camDepth kf P) + kf.cx

/-- The pinhole image-plane coordinate `v = fy * PcY * invz + cy`. -/
def pinholeV (kf : KFCam) (P : Vec3Q) : ℚ :=
  kf.fy * (addV (matVec kf.rcw P) kf.tcw).2.1 * (1 / camDepth kf P) + kf.cy

/-- Both reprojection methods write only their reference out-parameters and
locals — neither contains a member write; the run wrappers record this by
returning `this` unchanged next to the boolean/output result. -/
def ProjectPointDistortRun (kf : KFCam) (P : Vec3Q) : KFCam × Option (ℚ × ℚ) :=
  (kf, ProjectPointDistort kf P)

/-- Run wrapper for `ProjectPointUnDistort`; see `ProjectPointDistortRun`. -/
def ProjectPointUnDistortRun (kf : KFCam) (P : Vec3Q) : KFCam × Option (ℚ × ℚ) :=
  (kf, ProjectPointUnDistort kf P)

/-! ### Rotation logarithm (`logSO3`, G2oTypes.cc) -/

/-- `R.trace()` for a 3×3 real matrix. -/
noncomputable def mat3trace (R : Matrix (Fin 3) (Fin 3) ℝ) : ℝ := R 0 0 + R 1 1 + R 2 2

/-- The antisymmetric-part vector `w` computed first by `logSO3`. -/
noncomputable def wvec (R : Matrix (Fin 3) (Fin 3) ℝ) : ℝ × ℝ × ℝ :=
  ((R 2 1 - R 1 2) / 2, (R 0 2 - R 2 0) / 2, (R 1 0 - R 0 1) / 2)

/-- `cos_theta = (R.trace() - 1.0) * 0.5`. -/
noncomputable def cosTheta (R : Matrix (Fin 3) (Fin 3) ℝ) : ℝ := (mat3trace R - 1) * 0.5

/-- `logSO3` (G2oTypes.cc): outside the arccos domain or below the 1e-5
sine threshold the unscaled vector `w` is returned, otherwise `w` scaled by
`θ / sin θ`. -/
noncomputable def logSO3 (R : Matrix (Fin 3) (Fin 3) ℝ) : ℝ × ℝ × ℝ :=
  let w := wvec R
  if 1 < |cosTheta R| then w
  else
    let theta := Real.arccos (cosTheta R)
    let sinTheta := Real.sin theta
    if |sinTheta| < 1e-5 then w
    else (theta * w.1 / sinTheta, theta * w.2.1 / sinTheta, theta * w.2.2 / sinTheta)

/-! ### `ImuCamPose::Update` and `ImuCamPose::UpdateW` (G2oTypes.cc)

`expSO3` and `normalizeRotation` involve real trigonometry and an SVD; the
update steps are embedded parametrically in both, which is exactly what the
claims about these steps quantify over.  The source's
`normalizeRotation(Rwb);` / `normalizeRotation(DR);` statements call the
by-value function `Eigen::Matrix3d normalizeRotation(const Eigen::Matrix3d&)`
and discard the returned matrix, which the embedding renders as a discarded
`let`. -/

/-- 3×3 rational matrices. -/
abbrev M3 := Matrix (Fin 3) (Fin 3) ℚ

/-- The `ImuCamPose` state touched by the two update methods. -/
structure ImuPoseState where
  its : Nat
  Rwb : M3
  twb : Fin 3 → ℚ
  Rwb0 : M3
  DR : M3
  Rcb : List M3
  tcb : List (Fin 3 → ℚ)
  Rcw : List M3
  tcw : List (Fin 3 → ℚ)

namespace ImuCamPose

/-- `ImuCamPose::Update` : right-multiplicative rotation update, body-frame
translation update, and on every 3rd call the (discarded) normalization and
counter reset; camera transforms re-derived from the updated body pose. -/
def Update (expSO3 : (Fin 3 → ℚ) → M3) (normalizeRotation : M3 → M3)
    (st : ImuPoseState) (u : Fin 6 → ℚ) : ImuPoseState :=
  let ur : Fin 3 → ℚ := fun k => u ⟨k.val, by omega⟩
  let ut : Fin 3 → ℚ := fun k => u ⟨k.val + 3, by omega⟩
  let twb1 := st.twb + Matrix.mulVec st.Rwb ut
  let Rwb1 := st.Rwb * expSO3 ur
  let its1 := st.its + 1
  let its2 := if its1 ≥ 3 then (let _ := normalizeRotation Rwb1; 0) else its1
  let Rbw := Matrix.transpose Rwb1
  let tbw := -(Matrix.mulVec Rbw twb1)
  { st with
    its := its2
    Rwb := Rwb1
    twb := twb1
    Rcw := st.Rcb.map (fun rcb => rcb * Rbw)
    tcw := List.zipWith (fun rcb tc => Matrix.mulVec rcb tbw + tc) st.Rcb st.tcb }

/-- `ImuCamPose::UpdateW` : left-multiplicative update of the incremental
rotation `DR`, world-frame translation update, and on every 5th call the
zeroing of `DR`'s entries (0,2), (1,2), (2,0), (2,1) followed by the
(discarded) normalization and counter reset. -/
def UpdateW (expSO3 : (Fin 3 → ℚ) → M3) (normalizeRotation : M3 → M3)
    (st : ImuPoseState) (u : Fin 6 → ℚ) : ImuPoseState :=
  let ur : Fin 3 → ℚ := fun k => u ⟨k.val, by omega⟩
  let ut : Fin 3 → ℚ := fun k => u ⟨k.val + 3, by omega⟩
  let DR1 := expSO3 ur * st.DR
  let Rwb1 := DR1 * st.Rwb0
  let twb1 := st.twb + ut
  let its1 := st.its + 1
  let DR2 : M3 :=
    if its1 ≥ 5 then
      let z : M3 := Matrix.of (fun a b : Fin 3 =>
        if (a = 0 ∧ b = 2) ∨ (a = 1 ∧ b = 2) ∨ (a = 2 ∧ b = 0) ∨ (a = 2 ∧ b = 1) then 0
        else DR1 a b)
      let _ := normalizeRotation z
      z
    else DR1
  let its2 := if its1 ≥ 5 then 0 else its1
  let Rbw := Matrix.transpose Rwb1
  let tbw := -(Matrix.mulVec Rbw twb1)
  { st with
    its := its2
    Rwb := Rwb1
    twb := twb1
    DR := DR2
    Rcw := st.Rcb.map (fun rcb => rcb * Rbw)
    tcw := List.zipWith (fun rcb tc => Matrix.mulVec rcb tbw + tc) st.Rcb st.tcb }

end ImuCamPose

/-! ### Concrete instances used by witnesses and counterexamples -/

/-- A world holding only the root keyframe. -/
def rootW : World :=
  { kfs := fun j => if j = 0 then some {} else none
    mps := fun _ => none
    initKFid := 0 }

/-- A world whose keyframe 1 is guarded by `mbNotErase`. -/
def guardW : World :=
  { kfs := fun j => if j = 1 then some { notErase := true } else none
    mps := fun _ => none
    initKFid := 0 }

/-- A world holding two fresh keyframes 1 and 2. -/
def twoKFW : World :=
  { kfs := fun j => if j = 1 then some {} else if j = 2 then some {} else none
    mps := fun _ => none
    initKFid := 0 }

/-- A world with a symmetric weight-7 edge between keyframes 1 and 2. -/
def wC4 : World :=
  { kfs := fun j =>
      if j = 1 then some { conn := [(2, 7)], orderedKFs := [2], orderedWs := [7] }
      else if j = 2 then some { conn := [(1, 7)], orderedKFs := [1], orderedWs := [7] }
      else none
    mps := fun _ => none
    initKFid := 0 }

/-- A world where keyframe 1 has parent 9 and children 2 and 3, ready for a
`SetBadFlag` spanning-tree update. -/
def wC2 : World :=
  { kfs := fun j =>
      if j = 1 then some { parent := some 9, children := [2, 3] }
      else if j = 2 then some { parent := some 1 }
      else if j = 3 then some { parent := some 1 }
      else if j = 9 then some { children := [1] }
      else none
    mps := fun _ => none
    initKFid := 0 }

/-- A world whose keyframe 1 carries every cross-referenced container, for
the save / load round trip. -/
def wC8 : World :=
  { kfs := fun j =>
      if j = 1 then some
        { conn := [(2, 7), (3, 4)]
          parent := some 9
          children := [4, 5]
          loopEdges := [6]
          mergeEdges := [] }
      else none
    mps := fun _ => none
    initKFid := 0 }

/-- A world where keyframe 1 shares one landmark with keyframe 2 and two
landmarks with keyframe 3 — both tallies below the promotion threshold. -/
def w0C1 : World :=
  { kfs := fun j =>
      if j = 1 then some { mapPoints := [some 10, some 11, some 12] }
      else if j = 2 then some {}
      else if j = 3 then some {}
      else none
    mps := fun m =>
      if m = 10 then some { obs := [2] }
      else if m = 11 then some { obs := [3] }
      else if m = 12 then some { obs := [3] }
      else none
    initKFid := 0 }

/-- The keyframe-1 record of `wC1b` : fifteen landmark slots. -/
def kfA15 : KF := { mapPoints := (List.range 15).map (fun m => some m) }

/-- A world where keyframe 1 shares fifteen landmarks with keyframe 2 —
exactly the promotion threshold. -/
def wC1b : World :=
  { kfs := fun j =>
      if j = 1 then some kfA15
      else if j = 2 then some {}
      else none
    mps := fun m => if m < 15 then some { obs := [2] } else none
    initKFid := 0 }

/-- An identity-pose camera with unit focal length, principal point
(100, 100), image bounds [0, 200]² and zero distortion. -/
def cam0 : KFCam :=
  { rcw := ((1, 0, 0), (0, 1, 0), (0, 0, 1))
    tcw := (0, 0, 0)
    fx := 1
    fy := 1
    cx := 100
    cy := 100
    invfx := 1
    invfy := 1
    mnMinX := 0
    mnMinY := 0
    mnMaxX := 200
    mnMaxY := 200
    dist := [0, 0, 0, 0] }

/-- Sine of the tiny test rotation angle (10⁻⁶). -/
noncomputable def sSmall : ℝ := 1 / 1000000

/-- Cosine of the tiny test rotation angle. -/
noncomputable def cSmall : ℝ := Real.sqrt (1 - 1 / 1000000000000)

/-- An exact rotation about the z-axis whose angle θ has sin θ = 1e-6,
below the 1e-5 threshold of `logSO3`. -/
noncomputable def Rsmall : Matrix (Fin 3) (Fin 3) ℝ :=
  Matrix.of ![![cSmall, -sSmall, 0], ![sSmall, cSmall, 0], ![0, 0, 1]]

/-! ### Basic lemmas about the state helpers -/

theorem modKF_kfs (w : World) (i : Nat) (f : KF → KF) (j : Nat) :
    (modKF w i f).kfs j = if j = i then (w.kfs j).map f else w.kfs j := rfl

theorem modKF_mps (w : World) (i : Nat) (f : KF → KF) : (modKF w i f).mps = w.mps := rfl

theorem modKF_initKFid (w : World) (i : Nat) (f : KF → KF) :
    (modKF w i f).initKFid = w.initKFid := rfl

theorem modMP_kfs (w : World) (m : Nat) (f : MP → MP) : (modMP w m f).kfs = w.kfs := rfl

theorem modMP_initKFid (w : World) (m : Nat) (f : MP → MP) :
    (modMP w m f).initKFid = w.initKFid := rfl

theorem kfsIsSome_modKF (w : World) (i : Nat) (f : KF → KF) (j : Nat) :
    ((modKF w i f).kfs j).isSome = (w.kfs j).isSome := by
  rw [modKF_kfs]
  split
  · cases w.kfs j <;> rfl
  · rfl

theorem kfsIsSome_ubc (w : World) (i j : Nat) :
    ((UpdateBestCovisibles w i).kfs j).isSome = (w.kfs j).isSome := by
  unfold UpdateBestCovisibles
  cases h : w.kfs i <;> simp [kfsIsSome_modKF]

theorem kfsIsSome_addConnection (w : World) (i j : Nat) (wt : Int) (j' : Nat) :
    ((AddConnection w i j wt).kfs j').isSome = (w.kfs j').isSome := by
  unfold AddConnection
  split
  · rfl
  · split
    · rw [kfsIsSome_ubc, kfsIsSome_modKF]
    · split
      · rw [kfsIsSome_ubc, kfsIsSome_modKF]
      · rfl

theorem kfsIsSome_eraseConnection (w : World) (i j : Nat) (j' : Nat) :
    ((EraseConnection w i j).kfs j').isSome = (w.kfs j').isSome := by
  unfold EraseConnection
  split
  · rfl
  · split
    · rw [kfsIsSome_ubc, kfsIsSome_modKF]
    · rfl

theorem kfsIsSome_addChild (w : World) (i c : Nat) (j : Nat) :
    ((AddChild w i c).kfs j).isSome = (w.kfs j).isSome := kfsIsSome_modKF ..

theorem kfsIsSome_eraseChild (w : World) (i c : Nat) (j : Nat) :
    ((EraseChild w i c).kfs j).isSome = (w.kfs j).isSome := kfsIsSome_modKF ..

theorem kfsIsSome_changeParent (w : World) (c p : Nat) (j : Nat) :
    ((ChangeParent w c p).kfs j).isSome = (w.kfs j).isSome := by
  unfold ChangeParent
  split
  · rfl
  · rw [kfsIsSome_addChild, kfsIsSome_modKF]

theorem kfsIsSome_eraseObservation (w : World) (m i : Nat) (j : Nat) :
    ((EraseObservation w m i).kfs j).isSome = (w.kfs j).isSome := rfl

theorem kfsIsSome_foldl {α : Type} (step : World → α → World)
    (h : ∀ wa a j, ((step wa a).kfs j).isSome = (wa.kfs j).isSome)
    (l : List α) (w : World) (j : Nat) :
    ((l.foldl step w).kfs j).isSome = (w.kfs j).isSome := by
  induction l generalizing w with
  | nil => rfl
  | cons a t ih => rw [List.foldl_cons, ih, h]

theorem kfsIsSome_reparentLoop (fuel : Nat) (w : World) (i : Nat) (cand : List Nat) (j : Nat) :
    ((reparentLoop fuel w i cand).kfs j).isSome = (w.kfs j).isSome := by
  induction fuel generalizing w cand with
  | zero => rfl
  | succ n ih =>
    unfold reparentLoop
    cases hkf : w.kfs i with
    | none => rfl
    | some kf =>
      by_cases hch : kf.children = []
      · simp only [hch, if_true]
      · simp only [hch, if_false]
        cases findMaxPair w kf.children cand with
        | none => rfl
        | some tup =>
          rw [ih, kfsIsSome_eraseChild, kfsIsSome_changeParent]

theorem kfsIsSome_sbfEraseConnections (w : World) (i : Nat) (conn : List (Nat × Int)) (j : Nat) :
    ((sbfEraseConnections w i conn).kfs j).isSome = (w.kfs j).isSome :=
  kfsIsSome_foldl _ (fun wa a j => kfsIsSome_eraseConnection wa a.1 i j) conn w j

theorem kfsIsSome_sbfEraseObservations (w : World) (i : Nat) (mpl : List (Option Nat)) (j : Nat) :
    ((sbfEraseObservations w i mpl).kfs j).isSome = (w.kfs j).isSome :=
  kfsIsSome_foldl _ (fun wa a j => by cases a <;> rfl) mpl w j

theorem kfsIsSome_sbfLeftoverFold (w : World) (par : Option Nat) (leftover : List Nat) (j : Nat) :
    ((sbfLeftoverFold w par leftover).kfs j).isSome = (w.kfs j).isSome :=
  kfsIsSome_foldl _
    (fun wa c j => by
      cases par with
      | some p => exact kfsIsSome_changeParent wa c p j
      | none => exact kfsIsSome_modKF wa c _ j)
    leftover w j

/-! ### Association-list and set lemmas -/

theorem mapLookup_nil (k : Nat) : mapLookup k [] = none := rfl

theorem mapLookup_cons (q : Nat × Int) (t : List (Nat × Int)) (k : Nat) :
    mapLookup k (q :: t) = if q.1 = k then some q.2 else mapLookup k t := by
  unfold mapLookup
  by_cases h : q.1 = k
  · simp [List.find?_cons, h]
  · simp [List.find?_cons, h]

theorem mapLookup_mapInsert_self (k : Nat) (v : Int) (l : List (Nat × Int)) :
    mapLookup k (mapInsert k v l) = some v := by
  induction l with
  | nil => simp [mapInsert, mapLookup_cons]
  | cons p t ih =>
    obtain ⟨k', v'⟩ := p
    unfold mapInsert
    by_cases h1 : k < k'
    · simp [h1, mapLookup_cons]
    · by_cases h2 : k = k'
      · simp [h1, h2, mapLookup_cons]
      · simp only [h1, h2, if_false]
        rw [mapLookup_cons, if_neg (fun h => h2 h.symm)]
        exact ih

theorem mapLookup_mapErase_self (k : Nat) (l : List (Nat × Int)) :
    mapLookup k (mapErase k l) = none := by
  induction l with
  | nil => rfl
  | cons p t ih =>
    show mapLookup k ((p :: t).filter (fun q => q.1 ≠ k)) = none
    rw [List.filter_cons]
    by_cases h : p.1 = k
    · rw [if_neg (by simp [h])]
      exact ih
    · rw [if_pos (by simp [h]), mapLookup_cons, if_neg h]
      exact ih

theorem mapLookup_mem {k : Nat} {c : Int} {l : List (Nat × Int)}
    (h : mapLookup k l = some c) : (k, c) ∈ l := by
  induction l with
  | nil => simp [mapLookup] at h
  | cons p t ih =>
    rw [mapLookup_cons] at h
    by_cases h1 : p.1 = k
    · rw [if_pos h1] at h
      subst h1
      rw [Option.some_inj] at h
      subst h
      simp
    · rw [if_neg h1] at h
      exact List.mem_cons_of_mem _ (ih h)

theorem mapLookup_isSome_of_mem {k : Nat} {c : Int} {l : List (Nat × Int)}
    (h : (k, c) ∈ l) : (mapLookup k l).isSome := by
  induction l with
  | nil => simp at h
  | cons p t ih =>
    rw [mapLookup_cons]
    by_cases h1 : p.1 = k
    · simp [h1]
    · rw [if_neg h1]
      rcases List.mem_cons.mp h with h2 | h2
      · cases h2; simp at h1
      · exact ih h2

/-! ### Preservation lemmas for the graph operations -/

theorem kfs_modKF_other (w : World) (i : Nat) (f : KF → KF) {j : Nat} (h : j ≠ i) :
    (modKF w i f).kfs j = w.kfs j := by
  rw [modKF_kfs, if_neg h]

theorem kfs_modKF_self (w : World) (i : Nat) (f : KF → KF) :
    (modKF w i f).kfs i = (w.kfs i).map f := by
  rw [modKF_kfs, if_pos rfl]

theorem kfs_ubc_other (w : World) (a : Nat) {j : Nat} (h : j ≠ a) :
    (UpdateBestCovisibles w a).kfs j = w.kfs j := by
  unfold UpdateBestCovisibles
  split
  · rfl
  · rw [kfs_modKF_other _ _ _ h]

theorem getWeight_modKF_connEq (w : World) (a : Nat) (f : KF → KF)
    (hf : ∀ k, (f k).conn = k.conn) (b c : Nat) :
    getWeight (modKF w a f) b c = getWeight w b c := by
  unfold getWeight
  by_cases h : b = a
  · subst h
    rw [kfs_modKF_self]
    cases w.kfs b with
    | none => rfl
    | some k => simp [hf]
  · rw [kfs_modKF_other _ _ _ h]

theorem getWeight_ubc (w : World) (a : Nat) (b c : Nat) :
    getWeight (UpdateBestCovisibles w a) b c = getWeight w b c := by
  unfold UpdateBestCovisibles
  split
  · rfl
  · dsimp only
    apply getWeight_modKF_connEq
    intro k
    rfl

theorem kfs_addConnection_other (w : World) (a b : Nat) (wt : Int) {j : Nat} (h : j ≠ a) :
    (AddConnection w a b wt).kfs j = w.kfs j := by
  unfold AddConnection
  split
  · rfl
  · split
    · rw [kfs_ubc_other _ _ h, kfs_modKF_other _ _ _ h]
    · split
      · rw [kfs_ubc_other _ _ h, kfs_modKF_other _ _ _ h]
      · rfl

theorem getWeight_addConnection_self (w : World) (a b : Nat) (wt : Int)
    (h : (w.kfs a).isSome) : getWeight (AddConnection w a b wt) a b = wt := by
  obtain ⟨ka, hka⟩ := Option.isSome_iff_exists.mp h
  unfold AddConnection
  rw [hka]
  dsimp only
  cases hl : mapLookup b ka.conn with
  | none =>
    rw [getWeight_ubc]
    unfold getWeight
    rw [kfs_modKF_self, hka]
    simp [mapLookup_mapInsert_self]
  | some ex =>
    dsimp only
    by_cases hx : ex ≠ wt
    · rw [if_pos hx, getWeight_ubc]
      unfold getWeight
      rw [kfs_modKF_self, hka]
      simp [mapLookup_mapInsert_self]
    · rw [if_neg hx]
      push_neg at hx
      unfold getWeight
      rw [hka]
      simp [hl, hx]

theorem kfs_eraseConnection_other (w : World) (a b : Nat) {j : Nat} (h : j ≠ a) :
    (EraseConnection w a b).kfs j = w.kfs j := by
  unfold EraseConnection
  split
  · rfl
  · split
    · rw [kfs_ubc_other _ _ h, kfs_modKF_other _ _ _ h]
    · rfl

theorem kfs_changeParent_other (w : World) (c p : Nat) {j : Nat} (hc : j ≠ c) (hp : j ≠ p) :
    (ChangeParent w c p).kfs j = w.kfs j := by
  unfold ChangeParent AddChild
  split
  · rfl
  · rw [kfs_modKF_other _ _ _ hp, kfs_modKF_other _ _ _ hc]

/-! ### Invariants of the shared-observation tally -/

/-- Keys added by `incKey` come from the old keys or are `k` itself. -/
theorem incKey_keys (k : Nat) (l : List (Nat × Int)) :
    ∀ q ∈ incKey k l, q.1 = k ∨ q.1 ∈ l.map (·.1) := by
  induction l with
  | nil =>
    intro q hq
    unfold incKey at hq
    rw [List.mem_singleton] at hq
    left
    rw [hq]
  | cons p t ih =>
    obtain ⟨k', v'⟩ := p
    intro q hq
    unfold incKey at hq
    by_cases h1 : k < k'
    · rw [if_pos h1] at hq
      rcases List.mem_cons.mp hq with h | h
      · left
        rw [h]
      · right
        rcases List.mem_cons.mp h with h' | h'
        · rw [h']
          simp
        · simp only [List.map_cons]
          exact List.mem_cons_of_mem _ (List.mem_map.mpr ⟨q, h', rfl⟩)
    · rw [if_neg h1] at hq
      by_cases h2 : k = k'
      · rw [if_pos h2] at hq
        rcases List.mem_cons.mp hq with h | h
        · left
          rw [h, h2]
        · right
          simp only [List.map_cons]
          exact List.mem_cons_of_mem _ (List.mem_map.mpr ⟨q, h, rfl⟩)
      · rw [if_neg h2] at hq
        rcases List.mem_cons.mp hq with h | h
        · right
          rw [h]
          simp
        · rcases ih q h with h' | h'
          · left
            exact h'
          · right
            simp only [List.map_cons]
            exact List.mem_cons_of_mem _ h'

/-- `incKey` keeps the key list strictly ascending. -/
theorem incKey_sorted (k : Nat) (l : List (Nat × Int))
    (h : l.Pairwise (fun p q => p.1 < q.1)) :
    (incKey k l).Pairwise (fun p q => p.1 < q.1) := by
  induction l with
  | nil => simp [incKey]
  | cons p t ih =>
    obtain ⟨k', v'⟩ := p
    rw [List.pairwise_cons] at h
    obtain ⟨hall, ht⟩ := h
    unfold incKey
    by_cases h1 : k < k'
    · rw [if_pos h1, List.pairwise_cons]
      refine ⟨?_, ?_⟩
      · intro q hq
        rcases List.mem_cons.mp hq with h | h
        · rw [h]
          exact h1
        · exact lt_trans h1 (hall q h)
      · rw [List.pairwise_cons]
        exact ⟨hall, ht⟩
    · rw [if_neg h1]
      by_cases h2 : k = k'
      · rw [if_pos h2, List.pairwise_cons]
        exact ⟨hall, ht⟩
      · rw [if_neg h2, List.pairwise_cons]
        refine ⟨?_, ih ht⟩
        intro q hq
        rcases incKey_keys k t q hq with h | h
        · rw [h]
          omega
        · rcases List.mem_map.mp h with ⟨a, ha, ha2⟩
          rw [← ha2]
          exact hall a ha

/-- A property preserved by every fold step holds for the fold. -/
theorem foldl_preserve {α β : Type} (P : β → Prop) (step : β → α → β)
    (h : ∀ b a, P b → P (step b a)) :
    ∀ (l : List α) (b0 : β), P b0 → P (l.foldl step b0) := by
  intro l
  induction l with
  | nil => intro b0 h0; exact h0
  | cons a t ih => intro b0 h0; exact ih _ (h b0 a h0)

/-- Every key tallied by `UpdateConnections` is a registered keyframe other
than the keyframe being updated. -/
theorem KFcounterOf_prop (w : World) (i : Nat) (kf : KF) :
    ∀ q ∈ KFcounterOf w i kf, q.1 ≠ i ∧ (w.kfs q.1).isSome := by
  unfold KFcounterOf
  apply foldl_preserve (fun acc : List (Nat × Int) => ∀ q ∈ acc, q.1 ≠ i ∧ (w.kfs q.1).isSome)
  · intro acc omp hacc
    cases omp with
    | none => exact hacc
    | some m =>
      dsimp only
      cases hm : w.mps m with
      | none => exact hacc
      | some mp =>
        dsimp only
        by_cases hb : mp.bad = true
        · rw [if_pos hb]
          exact hacc
        · rw [if_neg hb]
          apply foldl_preserve (fun acc : List (Nat × Int) => ∀ q ∈ acc, q.1 ≠ i ∧ (w.kfs q.1).isSome)
          · intro acc2 oid hacc2
            cases hk : w.kfs oid with
            | none => exact hacc2
            | some k2 =>
              dsimp only
              by_cases hcond : oid = i ∨ k2.bad = true ∨ k2.mapId ≠ kf.mapId
              · rw [if_pos hcond]
                exact hacc2
              · rw [if_neg hcond]
                intro q hq
                rcases incKey_keys oid acc2 q hq with h | h
                · push_neg at hcond
                  refine ⟨by rw [h]; exact hcond.1, ?_⟩
                  rw [h, hk]
                  rfl
                · rcases List.mem_map.mp h with ⟨a, ha, ha2⟩
                  rw [← ha2]
                  exact hacc2 a ha
          · exact hacc
  · intro q hq
    simp at hq

/-- The tally of `UpdateConnections` has strictly ascending keys. -/
theorem KFcounterOf_sorted (w : World) (i : Nat) (kf : KF) :
    (KFcounterOf w i kf).Pairwise (fun p q => p.1 < q.1) := by
  unfold KFcounterOf
  apply foldl_preserve (fun acc : List (Nat × Int) => acc.Pairwise (fun p q => p.1 < q.1))
  · intro acc omp hacc
    cases omp with
    | none => exact hacc
    | some m =>
      dsimp only
      cases hm : w.mps m with
      | none => exact hacc
      | some mp =>
        dsimp only
        by_cases hb : mp.bad = true
        · rw [if_pos hb]
          exact hacc
        · rw [if_neg hb]
          apply foldl_preserve (fun acc : List (Nat × Int) => acc.Pairwise (fun p q => p.1 < q.1))
          · intro acc2 oid hacc2
            cases hk : w.kfs oid with
            | none => exact hacc2
            | some k2 =>
              dsimp only
              by_cases hcond : oid = i ∨ k2.bad = true ∨ k2.mapId ≠ kf.mapId
              · rw [if_pos hcond]
                exact hacc2
              · rw [if_neg hcond]
                exact incKey_sorted oid acc2 hacc2
          · exact hacc
  · simp

theorem ucPromote_cons (w : World) (i : Nat) (p : Nat × Int) (t : List (Nat × Int)) :
    ucPromote w i (p :: t) =
      ucPromote (if p.2 ≥ 15 then AddConnection w p.1 i p.2 else w) i t := rfl

theorem kfs_ucPromote_other (i : Nat) {b : Nat} :
    ∀ (counter : List (Nat × Int)) (w : World), (∀ q ∈ counter, q.1 ≠ b) →
      (ucPromote w i counter).kfs b = w.kfs b := by
  intro counter
  induction counter with
  | nil => intro w _; rfl
  | cons p t ih =>
    intro w hall
    rw [ucPromote_cons, ih _ (fun q hq => hall q (List.mem_cons_of_mem _ hq))]
    by_cases h : p.2 ≥ 15
    · rw [if_pos h, kfs_addConnection_other _ _ _ _ (Ne.symm (hall p (List.mem_cons_self _ _)))]
    · rw [if_neg h]

theorem kfsIsSome_ucPromote (w : World) (i : Nat) (counter : List (Nat × Int)) (j : Nat) :
    ((ucPromote w i counter).kfs j).isSome = (w.kfs j).isSome :=
  kfsIsSome_foldl _
    (fun wa a j => by
      by_cases h : a.2 ≥ 15
      · rw [if_pos h]
        exact kfsIsSome_addConnection wa a.1 i a.2 j
      · rw [if_neg h])
    counter w j

/-- Two worlds agreeing on a keyframe agree on its stored weights. -/
theorem getWeight_congr {w1 w2 : World} {b : Nat} (h : w1.kfs b = w2.kfs b) (x : Nat) :
    getWeight w1 b x = getWeight w2 b x := by
  unfold getWeight
  rw [h]

/-- After the promotion pass, a neighbor whose tally made the threshold
stores exactly that tally for the updated keyframe. -/
theorem getWeight_ucPromote (i : Nat) (b : Nat) (c : Int) (hth : 15 ≤ c) :
    ∀ (counter : List (Nat × Int)) (w : World),
      counter.Pairwise (fun p q => p.1 ≠ q.1) → (b, c) ∈ counter → (w.kfs b).isSome →
      getWeight (ucPromote w i counter) b i = c := by
  intro counter
  induction counter with
  | nil =>
    intro w _ hmem _
    simp at hmem
  | cons p t ih =>
    intro w hnd hmem hsome
    obtain ⟨bp, cp⟩ := p
    rw [List.pairwise_cons] at hnd
    obtain ⟨hall, ht⟩ := hnd
    rw [ucPromote_cons]
    rcases List.mem_cons.mp hmem with h | h
    · rw [Prod.mk.injEq] at h
      obtain ⟨hb, hc⟩ := h
      subst hb
      subst hc
      rw [if_pos hth]
      have hkeq := kfs_ucPromote_other i t (AddConnection w b i c)
        (fun q hq => Ne.symm (hall q hq))
      exact (getWeight_congr hkeq i).trans (getWeight_addConnection_self w b i c hsome)
    · have hne : bp ≠ b := hall (b, c) h
      by_cases hp : cp ≥ 15
      · rw [if_pos hp]
        refine ih _ ht h ?_
        rw [kfs_addConnection_other _ _ _ _ (Ne.symm hne)]
        exact hsome
      · rw [if_neg hp]
        exact ih _ ht h hsome

theorem getWeight_addChild (w : World) (a x b c : Nat) :
    getWeight (AddChild w a x) b c = getWeight w b c := by
  unfold AddChild
  apply getWeight_modKF_connEq
  intro k
  rfl

theorem getWeight_ucAssign_self (w2 : World) (i : Nat) (counter : List (Nat × Int))
    (ordered : List (Int × Nat)) (b : Nat) (hsome : (w2.kfs i).isSome) :
    getWeight (ucAssign w2 i counter ordered) i b = (mapLookup b counter).getD 0 := by
  obtain ⟨k, hk⟩ := Option.isSome_iff_exists.mp hsome
  unfold ucAssign getWeight
  rw [kfs_modKF_self, hk]
  rfl

theorem getWeight_ucAssign_other (w2 : World) (i : Nat) (counter : List (Nat × Int))
    (ordered : List (Int × Nat)) {b : Nat} (h : b ≠ i) (x : Nat) :
    getWeight (ucAssign w2 i counter ordered) b x = getWeight w2 b x := by
  unfold ucAssign getWeight
  rw [kfs_modKF_other _ _ _ h]

theorem kfsIsSome_ucAssign (w2 : World) (i : Nat) (counter : List (Nat × Int))
    (ordered : List (Int × Nat)) (j : Nat) :
    ((ucAssign w2 i counter ordered).kfs j).isSome = (w2.kfs j).isSome :=
  kfsIsSome_modKF ..

theorem getWeight_ucFirstConn (w3 : World) (i : Nat) (first : Bool) (init : Nat)
    (top : Option Nat) (b c : Nat) :
    getWeight (ucFirstConn w3 i first init top) b c = getWeight w3 b c := by
  unfold ucFirstConn
  split
  · split
    · rw [getWeight_addChild]
      apply getWeight_modKF_connEq
      intro k
      rfl
    · rfl
  · rfl

/-! ### Weight-map / ordered-cache preservation through the tree update -/

theorem getConn_modKF_other (w : World) (a : Nat) (f : KF → KF) {b : Nat} (h : b ≠ a) :
    getConn (modKF w a f) b = getConn w b := by
  unfold getConn
  rw [kfs_modKF_other _ _ _ h]

theorem getOrdered_modKF_other (w : World) (a : Nat) (f : KF → KF) {b : Nat} (h : b ≠ a) :
    getOrdered (modKF w a f) b = getOrdered w b := by
  unfold getOrdered
  rw [kfs_modKF_other _ _ _ h]

theorem getConn_modKF_connEq (w : World) (a : Nat) (f : KF → KF)
    (hf : ∀ k, (f k).conn = k.conn) (b : Nat) :
    getConn (modKF w a f) b = getConn w b := by
  unfold getConn
  by_cases hb : b = a
  · subst hb
    rw [kfs_modKF_self]
    cases w.kfs b <;> simp [hf]
  · rw [kfs_modKF_other _ _ _ hb]

theorem getOrdered_modKF_ordEq (w : World) (a : Nat) (f : KF → KF)
    (hf : ∀ k, (f k).orderedKFs = k.orderedKFs) (b : Nat) :
    getOrdered (modKF w a f) b = getOrdered w b := by
  unfold getOrdered
  by_cases hb : b = a
  · subst hb
    rw [kfs_modKF_self]
    cases w.kfs b <;> simp [hf]
  · rw [kfs_modKF_other _ _ _ hb]

theorem getConn_changeParent (w : World) (c p b : Nat) :
    getConn (ChangeParent w c p) b = getConn w b := by
  unfold ChangeParent AddChild
  split
  · rfl
  · refine (getConn_modKF_connEq _ _ _ ?_ b).trans (getConn_modKF_connEq _ _ _ ?_ b) <;>
      exact fun k => rfl

theorem getOrdered_changeParent (w : World) (c p b : Nat) :
    getOrdered (ChangeParent w c p) b = getOrdered w b := by
  unfold ChangeParent AddChild
  split
  · rfl
  · refine (getOrdered_modKF_ordEq _ _ _ ?_ b).trans (getOrdered_modKF_ordEq _ _ _ ?_ b) <;>
      exact fun k => rfl

theorem getConn_eraseChild (w : World) (a c b : Nat) :
    getConn (EraseChild w a c) b = getConn w b := by
  unfold EraseChild
  refine getConn_modKF_connEq _ _ _ ?_ b
  exact fun k => rfl

theorem getOrdered_eraseChild (w : World) (a c b : Nat) :
    getOrdered (EraseChild w a c) b = getOrdered w b := by
  unfold EraseChild
  refine getOrdered_modKF_ordEq _ _ _ ?_ b
  exact fun k => rfl

theorem getConn_foldl {α : Type} (step : World → α → World)
    (h : ∀ wa a b, getConn (step wa a) b = getConn wa b) (l : List α) (w : World) (b : Nat) :
    getConn (l.foldl step w) b = getConn w b := by
  induction l generalizing w with
  | nil => rfl
  | cons a t ih =>
    rw [List.foldl_cons]
    exact (ih _).trans (h w a b)

theorem getOrdered_foldl {α : Type} (step : World → α → World)
    (h : ∀ wa a b, getOrdered (step wa a) b = getOrdered wa b) (l : List α) (w : World) (b : Nat) :
    getOrdered (l.foldl step w) b = getOrdered w b := by
  induction l generalizing w with
  | nil => rfl
  | cons a t ih =>
    rw [List.foldl_cons]
    exact (ih _).trans (h w a b)

theorem getConn_sbfLeftoverFold (w : World) (par : Option Nat) (leftover : List Nat) (b : Nat) :
    getConn (sbfLeftoverFold w par leftover) b = getConn w b :=
  getConn_foldl _
    (fun wa c b => by
      cases par with
      | some p => exact getConn_changeParent wa c p b
      | none =>
        dsimp only
        refine getConn_modKF_connEq wa c _ ?_ b
        exact fun k => rfl)
    leftover w b

theorem getOrdered_sbfLeftoverFold (w : World) (par : Option Nat) (leftover : List Nat) (b : Nat) :
    getOrdered (sbfLeftoverFold w par leftover) b = getOrdered w b :=
  getOrdered_foldl _
    (fun wa c b => by
      cases par with
      | some p => exact getOrdered_changeParent wa c p b
      | none =>
        dsimp only
        refine getOrdered_modKF_ordEq wa c _ ?_ b
        exact fun k => rfl)
    leftover w b

theorem getConn_reparentLoop (fuel : Nat) (w : World) (i : Nat) (cand : List Nat) (b : Nat) :
    getConn (reparentLoop fuel w i cand) b = getConn w b := by
  induction fuel generalizing w cand with
  | zero => rfl
  | succ n ih =>
    unfold reparentLoop
    cases hkf : w.kfs i with
    | none => rfl
    | some kf =>
      by_cases hch : kf.children = []
      · simp only [hch, if_true]
      · simp only [hch, if_false]
        cases findMaxPair w kf.children cand with
        | none => rfl
        | some tup =>
          rw [ih, getConn_eraseChild, getConn_changeParent]

theorem getOrdered_reparentLoop (fuel : Nat) (w : World) (i : Nat) (cand : List Nat) (b : Nat) :
    getOrdered (reparentLoop fuel w i cand) b = getOrdered w b := by
  induction fuel generalizing w cand with
  | zero => rfl
  | succ n ih =>
    unfold reparentLoop
    cases hkf : w.kfs i with
    | none => rfl
    | some kf =>
      by_cases hch : kf.children = []
      · simp only [hch, if_true]
      · simp only [hch, if_false]
        cases findMaxPair w kf.children cand with
        | none => rfl
        | some tup =>
          rw [ih, getOrdered_eraseChild, getOrdered_changeParent]

theorem getConn_sbfTree (w2 : World) (i : Nat) {b : Nat} (hbi : b ≠ i) :
    getConn (sbfTree w2 i) b = getConn w2 b := by
  unfold sbfTree
  split
  · rfl
  next kf2 hkf2 =>
    cases hp : kf2.parent with
    | none =>
      dsimp only
      refine (getConn_modKF_connEq _ _ _ ?_ b).trans
        ((getConn_sbfLeftoverFold _ _ _ b).trans
          ((getConn_reparentLoop _ _ _ _ b).trans (getConn_modKF_other _ _ _ hbi)))
      exact fun k => rfl
    | some p =>
      dsimp only
      refine (getConn_modKF_connEq _ _ _ ?_ b).trans
        ((getConn_eraseChild _ _ _ b).trans
          ((getConn_sbfLeftoverFold _ _ _ b).trans
            ((getConn_reparentLoop _ _ _ _ b).trans (getConn_modKF_other _ _ _ hbi))))
      exact fun k => rfl

theorem getOrdered_sbfTree (w2 : World) (i : Nat) {b : Nat} (hbi : b ≠ i) :
    getOrdered (sbfTree w2 i) b = getOrdered w2 b := by
  unfold sbfTree
  split
  · rfl
  next kf2 hkf2 =>
    cases hp : kf2.parent with
    | none =>
      dsimp only
      refine (getOrdered_modKF_ordEq _ _ _ ?_ b).trans
        ((getOrdered_sbfLeftoverFold _ _ _ b).trans
          ((getOrdered_reparentLoop _ _ _ _ b).trans (getOrdered_modKF_other _ _ _ hbi)))
      exact fun k => rfl
    | some p =>
      dsimp only
      refine (getOrdered_modKF_ordEq _ _ _ ?_ b).trans
        ((getOrdered_eraseChild _ _ _ b).trans
          ((getOrdered_sbfLeftoverFold _ _ _ b).trans
            ((getOrdered_reparentLoop _ _ _ _ b).trans (getOrdered_modKF_other _ _ _ hbi))))
      exact fun k => rfl

theorem getConn_sbfEraseObservations (w : World) (i : Nat) (mpl : List (Option Nat)) (b : Nat) :
    getConn (sbfEraseObservations w i mpl) b = getConn w b :=
  getConn_foldl _ (fun wa a b => by cases a <;> rfl) mpl w b

theorem getOrdered_sbfEraseObservations (w : World) (i : Nat) (mpl : List (Option Nat)) (b : Nat) :
    getOrdered (sbfEraseObservations w i mpl) b = getOrdered w b :=
  getOrdered_foldl _ (fun wa a b => by cases a <;> rfl) mpl w b

theorem getConn_congr {w1 w2 : World} {b : Nat} (h : w1.kfs b = w2.kfs b) :
    getConn w1 b = getConn w2 b := by
  unfold getConn
  rw [h]

theorem getOrdered_congr {w1 w2 : World} {b : Nat} (h : w1.kfs b = w2.kfs b) :
    getOrdered w1 b = getOrdered w2 b := by
  unfold getOrdered
  rw [h]

theorem getConn_ubc (w : World) (a b : Nat) :
    getConn (UpdateBestCovisibles w a) b = getConn w b := by
  unfold UpdateBestCovisibles
  split
  · rfl
  · dsimp only
    refine getConn_modKF_connEq _ _ _ ?_ b
    exact fun k => rfl

theorem getOrdered_ubc_self (w : World) (a : Nat) (kfa : KF) (h : w.kfs a = some kfa) :
    getOrdered (UpdateBestCovisibles w a) a = (ubcPairs w kfa.conn).map (·.2) := by
  unfold UpdateBestCovisibles
  rw [h]
  dsimp only
  unfold getOrdered
  rw [kfs_modKF_self, h]
  rfl

/-- Every entry of the rebuilt ordered vector is a key of the weight map it
was rebuilt from. -/
theorem mem_ubcPairs_key (w : World) (conn : List (Nat × Int)) (x : Nat)
    (h : x ∈ (ubcPairs w conn).map (·.2)) : ∃ v, (x, v) ∈ conn := by
  unfold ubcPairs at h
  rcases List.mem_map.mp h with ⟨p, hp, hpx⟩
  rw [List.mem_reverse] at hp
  have hp2 := List.mem_of_mem_filter hp
  have hp3 : p ∈ conn.map (fun q => (q.2, q.1)) :=
    ((List.perm_insertionSort pairLe _).mem_iff).mp hp2
  rcases List.mem_map.mp hp3 with ⟨q, hq, hqp⟩
  have hq1 : q.1 = x := by rw [← hpx, ← hqp]
  refine ⟨q.2, ?_⟩
  rw [show (x, q.2) = q by rw [← hq1]]
  exact hq

/-- The rebuilt ordered vector of `UpdateBestCovisibles` contains no
keyframe that is bad at rebuild time. -/
theorem ubc_excludes_bad (w : World) (a : Nat) (kfa : KF) (h : w.kfs a = some kfa) :
    ∀ x ∈ getOrdered (UpdateBestCovisibles w a) a, isBad w x = false := by
  rw [getOrdered_ubc_self w a kfa h]
  intro x hx
  unfold ubcPairs at hx
  rcases List.mem_map.mp hx with ⟨p, hp, hpx⟩
  rw [List.mem_reverse] at hp
  rw [List.mem_filter] at hp
  have h2 := hp.2
  rw [← hpx]
  simpa using h2

/-- `EraseConnection(b, i)` leaves `b` with no trace of `i` in its weight
map or (consistently cached) ordered vector. -/
theorem absent_after_eraseConnection (w : World) (b i : Nat)
    (hcons : i ∈ getOrdered w b → (mapLookup i (getConn w b)).isSome) :
    mapLookup i (getConn (EraseConnection w b i) b) = none ∧
    i ∉ getOrdered (EraseConnection w b i) b := by
  unfold EraseConnection
  cases hkb : w.kfs b with
  | none =>
    unfold getConn getOrdered
    rw [hkb]
    exact ⟨rfl, by simp⟩
  | some kb =>
    dsimp only
    have hconnw : getConn w b = kb.conn := by unfold getConn; rw [hkb]
    have hordw : getOrdered w b = kb.orderedKFs := by unfold getOrdered; rw [hkb]
    by_cases hl : (mapLookup i kb.conn).isSome
    · rw [if_pos hl]
      have hmid : (modKF w b (fun k => { k with conn := mapErase i k.conn })).kfs b =
          some { kb with conn := mapErase i kb.conn } := by
        rw [kfs_modKF_self, hkb]
        rfl
      constructor
      · rw [getConn_ubc]
        unfold getConn
        rw [hmid]
        exact mapLookup_mapErase_self i kb.conn
      · rw [getOrdered_ubc_self _ b _ hmid]
        intro hmem
        rcases mem_ubcPairs_key _ _ _ hmem with ⟨v, hv⟩
        have : (mapLookup i (mapErase i kb.conn)).isSome := mapLookup_isSome_of_mem hv
        rw [mapLookup_mapErase_self] at this
        simp at this
    · rw [if_neg hl]
      constructor
      · rw [hconnw]
        exact Option.not_isSome_iff_eq_none.mp hl
      · intro hmem
        exact hl (by rw [← hconnw]; exact hcons (by rw [hordw] at hmem ⊢; exact hmem))

/-- Once `b` carries no trace of `i`, a further `EraseConnection(s, i)` on
any keyframe keeps it that way. -/
theorem absent_preserved_eraseConnection (w : World) (b i s : Nat)
    (h : mapLookup i (getConn w b) = none ∧ i ∉ getOrdered w b) :
    mapLookup i (getConn (EraseConnection w s i) b) = none ∧
    i ∉ getOrdered (EraseConnection w s i) b := by
  by_cases hsb : b = s
  · subst hsb
    unfold EraseConnection
    cases hkb : w.kfs b with
    | none => exact h
    | some kb =>
      dsimp only
      have hconnw : getConn w b = kb.conn := by unfold getConn; rw [hkb]
      have hnone : mapLookup i kb.conn = none := by rw [← hconnw]; exact h.1
      rw [hnone]
      exact h
  · have hk : (EraseConnection w s i).kfs b = w.kfs b :=
      kfs_eraseConnection_other w s i hsb
    rw [getConn_congr hk, getOrdered_congr hk]
    exact h

theorem absent_preserved_phase1 (i : Nat) :
    ∀ (t : List (Nat × Int)) (w : World) (b : Nat),
      mapLookup i (getConn w b) = none ∧ i ∉ getOrdered w b →
      mapLookup i (getConn (sbfEraseConnections w i t) b) = none ∧
      i ∉ getOrdered (sbfEraseConnections w i t) b := by
  intro t
  induction t with
  | nil => intro w b h; exact h
  | cons q t ih =>
    intro w b h
    exact ih _ _ (absent_preserved_eraseConnection w b i q.1 h)

/-- After the first phase of `SetBadFlag`, no keyframe listed in the dying
keyframe's weight map retains `i` in its own map or cached vector. -/
theorem absent_after_phase1 (i : Nat) :
    ∀ (conn : List (Nat × Int)) (w : World),
      (∀ p ∈ conn, i ∈ getOrdered w p.1 → (mapLookup i (getConn w p.1)).isSome) →
      ∀ p ∈ conn,
        mapLookup i (getConn (sbfEraseConnections w i conn) p.1) = none ∧
        i ∉ getOrdered (sbfEraseConnections w i conn) p.1 := by
  intro conn
  induction conn with
  | nil =>
    intro w _ p hp
    simp at hp
  | cons q t ih =>
    intro w hcons p hp
    have hstep : sbfEraseConnections w i (q :: t) =
        sbfEraseConnections (EraseConnection w q.1 i) i t := rfl
    rw [hstep]
    have hq := absent_after_eraseConnection w q.1 i (hcons q (List.mem_cons_self _ _))
    rcases List.mem_cons.mp hp with hpq | hpt
    · rw [hpq]
      exact absent_preserved_phase1 i t _ _ hq
    · refine ih (EraseConnection w q.1 i) ?_ p hpt
      intro r hr hmem
      by_cases hrq : r.1 = q.1
      · rw [hrq] at hmem
        exact absurd hmem hq.2
      · have hk : (EraseConnection w q.1 i).kfs r.1 = w.kfs r.1 :=
          kfs_eraseConnection_other w q.1 i hrq
        rw [getOrdered_congr hk] at hmem
        rw [getConn_congr hk]
        exact hcons r (List.mem_cons_of_mem _ hr) hmem

/-! ### Monotonicity of the bad flag -/

theorem isBad_iff (w : World) (j : Nat) :
    isBad w j = true ↔ ∃ k, w.kfs j = some k ∧ k.bad = true := by
  unfold isBad
  cases h : w.kfs j with
  | none => simp
  | some k => simp

theorem isBadMono_modKF (w : World) (a : Nat) (f : KF → KF)
    (hf : ∀ k, k.bad = true → (f k).bad = true) {j : Nat} (h : isBad w j = true) :
    isBad (modKF w a f) j = true := by
  rw [isBad_iff] at h ⊢
  obtain ⟨k, hk, hb⟩ := h
  by_cases hj : j = a
  · subst hj
    exact ⟨f k, by rw [kfs_modKF_self, hk]; rfl, hf k hb⟩
  · exact ⟨k, by rw [kfs_modKF_other _ _ _ hj]; exact hk, hb⟩

theorem isBadMono_ubc (w : World) (a : Nat) {j : Nat} (h : isBad w j = true) :
    isBad (UpdateBestCovisibles w a) j = true := by
  unfold UpdateBestCovisibles
  split
  · exact h
  · dsimp only
    refine isBadMono_modKF _ _ _ ?_ h
    exact fun k hb => hb

theorem isBadMono_addConnection (w : World) (a b : Nat) (wt : Int) {j : Nat}
    (h : isBad w j = true) : isBad (AddConnection w a b wt) j = true := by
  unfold AddConnection
  split
  · exact h
  · split
    · refine isBadMono_ubc _ _ ?_
      refine isBadMono_modKF _ _ _ ?_ h
      exact fun k hb => hb
    · split
      · refine isBadMono_ubc _ _ ?_
        refine isBadMono_modKF _ _ _ ?_ h
        exact fun k hb => hb
      · exact h

theorem isBadMono_eraseConnection (w : World) (a b : Nat) {j : Nat}
    (h : isBad w j = true) : isBad (EraseConnection w a b) j = true := by
  unfold EraseConnection
  split
  · exact h
  · split
    · refine isBadMono_ubc _ _ ?_
      refine isBadMono_modKF _ _ _ ?_ h
      exact fun k hb => hb
    · exact h

theorem isBadMono_addChild (w : World) (a c : Nat) {j : Nat}
    (h : isBad w j = true) : isBad (AddChild w a c) j = true := by
  unfold AddChild
  refine isBadMono_modKF _ _ _ ?_ h
  exact fun k hb => hb

theorem isBadMono_eraseChild (w : World) (a c : Nat) {j : Nat}
    (h : isBad w j = true) : isBad (EraseChild w a c) j = true := by
  unfold EraseChild
  refine isBadMono_modKF _ _ _ ?_ h
  exact fun k hb => hb

theorem isBadMono_changeParent (w : World) (c p : Nat) {j : Nat}
    (h : isBad w j = true) : isBad (ChangeParent w c p) j = true := by
  unfold ChangeParent
  split
  · exact h
  · refine isBadMono_addChild _ _ _ ?_
    refine isBadMono_modKF _ _ _ ?_ h
    exact fun k hb => hb

theorem isBadMono_foldl {α : Type} (step : World → α → World)
    (h : ∀ wa a j, isBad wa j = true → isBad (step wa a) j = true)
    (l : List α) (w : World) (j : Nat) (h0 : isBad w j = true) :
    isBad (l.foldl step w) j = true := by
  induction l generalizing w with
  | nil => exact h0
  | cons a t ih =>
    rw [List.foldl_cons]
    exact ih _ (h w a j h0)

theorem isBadMono_reparentLoop (fuel : Nat) (w : World) (i : Nat) (cand : List Nat) {j : Nat}
    (h : isBad w j = true) : isBad (reparentLoop fuel w i cand) j = true := by
  induction fuel generalizing w cand with
  | zero => exact h
  | succ n ih =>
    unfold reparentLoop
    split
    · exact h
    · split
      · exact h
      · split
        · exact ih _ _ (isBadMono_eraseChild _ _ _ (isBadMono_changeParent _ _ _ h))
        · exact h

theorem isBadMono_sbfLeftoverFold (w : World) (par : Option Nat) (leftover : List Nat)
    {j : Nat} (h : isBad w j = true) : isBad (sbfLeftoverFold w par leftover) j = true := by
  refine isBadMono_foldl _ ?_ _ _ _ h
  intro wa c j' h'
  cases par with
  | some p => exact isBadMono_changeParent _ _ _ h'
  | none =>
    refine isBadMono_modKF _ _ _ ?_ h'
    exact fun k hb => hb

theorem isBadMono_sbfTree (w2 : World) (i : Nat) {j : Nat} (h : isBad w2 j = true) :
    isBad (sbfTree w2 i) j = true := by
  unfold sbfTree
  split
  · exact h
  · dsimp only
    refine isBadMono_modKF _ _ _ ?_ ?_
    · exact fun k _ => rfl
    · split
      · refine isBadMono_eraseChild _ _ _ ?_
        refine isBadMono_sbfLeftoverFold _ _ _ ?_
        refine isBadMono_reparentLoop _ _ _ _ ?_
        refine isBadMono_modKF _ _ _ ?_ h
        exact fun k hb => hb
      · refine isBadMono_sbfLeftoverFold _ _ _ ?_
        refine isBadMono_reparentLoop _ _ _ _ ?_
        refine isBadMono_modKF _ _ _ ?_ h
        exact fun k hb => hb

theorem isBadMono_sbfEraseConnections (w : World) (i : Nat) (conn : List (Nat × Int)) {j : Nat}
    (h : isBad w j = true) : isBad (sbfEraseConnections w i conn) j = true :=
  isBadMono_foldl _ (fun _ _ _ h' => isBadMono_eraseConnection _ _ _ h') conn w j h

theorem isBadMono_sbfEraseObservations (w : World) (i : Nat) (mpl : List (Option Nat)) {j : Nat}
    (h : isBad w j = true) : isBad (sbfEraseObservations w i mpl) j = true :=
  isBadMono_foldl _ (fun _ a _ h' => by cases a <;> exact h') mpl w j h

theorem isBadMono_setBadFlag (w : World) (i : Nat) {j : Nat}
    (h : isBad w j = true) : isBad (SetBadFlag w i) j = true := by
  unfold SetBadFlag
  split
  · exact h
  · split
    · exact h
    · split
      · refine isBadMono_modKF _ _ _ ?_ h
        exact fun k hb => hb
      · exact isBadMono_sbfTree _ _
          (isBadMono_sbfEraseObservations _ _ _ (isBadMono_sbfEraseConnections _ _ _ h))

theorem isBadMono_setErase (w : World) (i : Nat) {j : Nat}
    (h : isBad w j = true) : isBad (SetErase w i) j = true := by
  unfold SetErase
  split
  · exact h
  · dsimp only
    split
    · refine isBadMono_setBadFlag _ _ ?_
      split
      · refine isBadMono_modKF _ _ _ ?_ h
        exact fun k hb => hb
      · exact h
    · split
      · refine isBadMono_modKF _ _ _ ?_ h
        exact fun k hb => hb
      · exact h

theorem isBadMono_setNotErase (w : World) (i : Nat) {j : Nat}
    (h : isBad w j = true) : isBad (SetNotErase w i) j = true := by
  unfold SetNotErase
  refine isBadMono_modKF _ _ _ ?_ h
  exact fun k hb => hb

theorem isBadMono_addLoopEdge (w : World) (i e : Nat) {j : Nat}
    (h : isBad w j = true) : isBad (AddLoopEdge w i e) j = true := by
  unfold AddLoopEdge
  refine isBadMono_modKF _ _ _ ?_ h
  exact fun k hb => hb

theorem isBadMono_addMergeEdge (w : World) (i e : Nat) {j : Nat}
    (h : isBad w j = true) : isBad (AddMergeEdge w i e) j = true := by
  unfold AddMergeEdge
  refine isBadMono_modKF _ _ _ ?_ h
  exact fun k hb => hb

theorem isBad_eraseObservation (w : World) (m i : Nat) (j : Nat) :
    isBad (EraseObservation w m i) j = isBad w j := rfl

theorem isBadMono_ucPromote (w : World) (i : Nat) (counter : List (Nat × Int)) {j : Nat}
    (h : isBad w j = true) : isBad (ucPromote w i counter) j = true :=
  isBadMono_foldl _
    (fun wa a j' h' => by
      by_cases hp : a.2 ≥ 15
      · rw [if_pos hp]
        exact isBadMono_addConnection _ _ _ _ h'
      · rw [if_neg hp]
        exact h')
    counter w j h

theorem isBadMono_ucAssign (w2 : World) (i : Nat) (counter : List (Nat × Int))
    (ordered : List (Int × Nat)) {j : Nat} (h : isBad w2 j = true) :
    isBad (ucAssign w2 i counter ordered) j = true := by
  unfold ucAssign
  refine isBadMono_modKF _ _ _ ?_ h
  exact fun k hb => hb

theorem isBadMono_ucFirstConn (w3 : World) (i : Nat) (first : Bool) (init : Nat)
    (top : Option Nat) {j : Nat} (h : isBad w3 j = true) :
    isBad (ucFirstConn w3 i first init top) j = true := by
  unfold ucFirstConn
  split
  · split
    · refine isBadMono_addChild _ _ _ ?_
      refine isBadMono_modKF _ _ _ ?_ h
      exact fun k hb => hb
    · exact h
  · exact h

theorem isBadMono_updateConnections (w : World) (i : Nat) {j : Nat}
    (h : isBad w j = true) : isBad (UpdateConnections w i) j = true := by
  unfold UpdateConnections
  split
  · exact h
  · dsimp only
    split
    · exact h
    · refine isBadMono_ucFirstConn _ _ _ _ _ ?_
      refine isBadMono_ucAssign _ _ _ _ ?_
      split
      · split
        · exact isBadMono_addConnection _ _ _ _ (isBadMono_ucPromote _ _ _ h)
        · exact isBadMono_ucPromote _ _ _ h
      · exact isBadMono_ucPromote _ _ _ h

theorem isBadMono_preSave (w : World) (i : Nat) (spKF spMP spCam : List Nat) {j : Nat}
    (h : isBad w j = true) : isBad (PreSave w i spKF spMP spCam) j = true := by
  unfold PreSave
  refine isBadMono_modKF _ _ _ ?_ h
  exact fun k hb => hb

theorem isBadMono_postLoad (w : World) (i : Nat) (idKF idMP idCam : Nat → Nat) {j : Nat}
    (h : isBad w j = true) : isBad (PostLoad w i idKF idMP idCam) j = true := by
  unfold PostLoad
  split
  · exact h
  next kf hkf =>
    dsimp only
    refine isBadMono_ubc _ _ ?_
    by_cases hj : j = i
    · subst hj
      unfold isBad at h ⊢
      rw [kfs_modKF_self, hkf]
      rw [hkf] at h
      exact h
    · unfold isBad at h ⊢
      rw [kfs_modKF_other _ _ _ hj]
      exact h

/-- Setting the bad flag of a registered keyframe makes `isBad` answer
`true`. -/
theorem isBad_modKF_setBad (w : World) (i : Nat) (h : (w.kfs i).isSome) :
    isBad (modKF w i (fun k => { k with bad := true })) i = true := by
  obtain ⟨k, hk⟩ := Option.isSome_iff_exists.mp h
  unfold isBad
  rw [modKF_kfs]
  simp [hk]

theorem kfsIsSome_sbfTree (w2 : World) (i : Nat) (j : Nat) :
    ((sbfTree w2 i).kfs j).isSome = (w2.kfs j).isSome := by
  unfold sbfTree
  split
  · rfl
  next kf2 hkf2 =>
    rw [kfsIsSome_modKF]
    cases hp : kf2.parent with
    | some p =>
      dsimp only
      rw [kfsIsSome_eraseChild, kfsIsSome_sbfLeftoverFold, kfsIsSome_reparentLoop,
        kfsIsSome_modKF]
    | none =>
      dsimp only
      rw [kfsIsSome_sbfLeftoverFold, kfsIsSome_reparentLoop, kfsIsSome_modKF]

/-- The unguarded, non-root path of `SetBadFlag` always ends with the dying
keyframe marked bad. -/
theorem setBadFlag_full_isBad (w : World) (i : Nat) (kf : KF)
    (hfind : w.kfs i = some kf) (hroot : i ≠ w.initKFid) (hguard : kf.notErase = false) :
    isBad (SetBadFlag w i) i = true := by
  have hTree : ∀ w2 : World, (w2.kfs i).isSome → isBad (sbfTree w2 i) i = true := by
    intro w2 h2
    obtain ⟨kf2, hkf2⟩ := Option.isSome_iff_exists.mp h2
    unfold sbfTree
    rw [hkf2]
    dsimp only
    apply isBad_modKF_setBad
    cases hp : kf2.parent with
    | some p =>
      dsimp only
      rw [kfsIsSome_eraseChild, kfsIsSome_sbfLeftoverFold, kfsIsSome_reparentLoop,
        kfsIsSome_modKF, hkf2]
      rfl
    | none =>
      dsimp only
      rw [kfsIsSome_sbfLeftoverFold, kfsIsSome_reparentLoop, kfsIsSome_modKF, hkf2]
      rfl
  unfold SetBadFlag
  rw [hfind]
  dsimp only
  rw [if_neg hroot]
  simp only [hguard, Bool.false_eq_true, if_false]
  exact hTree _ (by rw [kfsIsSome_sbfEraseObservations, kfsIsSome_sbfEraseConnections, hfind]; rfl)

/-! ### Claim theorems -/

/-- C9: calling `SetBadFlag` on the keyframe whose id equals its map's
initial-keyframe id returns immediately, leaving the whole world — bad
flag, weight map, ordered list, parent, children, landmark slots,
to-be-erased flag, every neighbor and landmark — unchanged. -/
theorem setBadFlag_root_noop (w : World) (i : Nat) (kf : KF)
    (hfind : w.kfs i = some kf) (hroot : i = w.initKFid) :
    SetBadFlag w i = w := by
  unfold SetBadFlag
  rw [hfind]
  dsimp only
  rw [if_pos hroot]

/-- Witness for C9 at the concrete world `rootW`. -/
theorem setBadFlag_root_noop_witness :
    (rootW.kfs 0 = some {} ∧ 0 = rootW.initKFid) ∧ SetBadFlag rootW 0 = rootW :=
  ⟨⟨rfl, rfl⟩, setBadFlag_root_noop rootW 0 {} rfl rfl⟩

/-- The guarded, non-root path of `SetBadFlag` only sets the to-be-erased
flag. -/
theorem setBadFlag_guarded (w : World) (i : Nat) (kf : KF)
    (hfind : w.kfs i = some kf) (hroot : i ≠ w.initKFid) (hguard : kf.notErase = true) :
    SetBadFlag w i = modKF w i (fun k => { k with toBeErased := true }) := by
  unfold SetBadFlag
  rw [hfind]
  dsimp only
  rw [if_neg hroot]
  simp only [hguard, if_true]

theorem setBadFlag_unguarded (w : World) (i : Nat) (kf : KF)
    (hfind : w.kfs i = some kf) (hroot : i ≠ w.initKFid) (hguard : kf.notErase = false) :
    SetBadFlag w i =
      sbfTree (sbfEraseObservations (sbfEraseConnections w i kf.conn) i kf.mapPoints) i := by
  unfold SetBadFlag
  rw [hfind]
  dsimp only
  rw [if_neg hroot]
  simp only [hguard, Bool.false_eq_true, if_false]

/-- C4: the bad flag is monotone — no modelled operation resets it — and
`SetBadFlag` on an unguarded non-root keyframe sets it and scrubs the dying
keyframe from the weight map and ordered vector of every keyframe listed in
its own weight map (keyframes holding a stale one-sided edge are NOT
scrubbed, see the counterexample), and every `UpdateBestCovisibles` rebuild
excludes keyframes that are bad at rebuild time.  `hcons` states that the
neighbors' cached ordered vectors are consistent with their weight maps;
`hnotself` that the dying keyframe does not list itself. -/
theorem badFlag_monotone_and_absence (w : World) (i : Nat) (kf : KF)
    (hfind : w.kfs i = some kf)
    (hroot : i ≠ w.initKFid)
    (hguard : kf.notErase = false)
    (hcons : ∀ p ∈ kf.conn, i ∈ getOrdered w p.1 → (mapLookup i (getConn w p.1)).isSome)
    (hnotself : ∀ p ∈ kf.conn, p.1 ≠ i) :
    isBad (SetBadFlag w i) i = true ∧
    (∀ p ∈ kf.conn,
      mapLookup i (getConn (SetBadFlag w i) p.1) = none ∧
      i ∉ getOrdered (SetBadFlag w i) p.1) ∧
    (∀ (w' : World) (a : Nat) (kfa : KF), w'.kfs a = some kfa →
      ∀ x ∈ getOrdered (UpdateBestCovisibles w' a) a, isBad w' x = false) ∧
    (∀ (w' : World) (a b : Nat) (wt : Int) (j : Nat),
      isBad w' j = true → isBad (AddConnection w' a b wt) j = true) ∧
    (∀ (w' : World) (a b j : Nat),
      isBad w' j = true → isBad (EraseConnection w' a b) j = true) ∧
    (∀ (w' : World) (a j : Nat),
      isBad w' j = true → isBad (UpdateBestCovisibles w' a) j = true) ∧
    (∀ (w' : World) (a j : Nat),
      isBad w' j = true → isBad (UpdateConnections w' a) j = true) ∧
    (∀ (w' : World) (a j : Nat),
      isBad w' j = true → isBad (SetBadFlag w' a) j = true) ∧
    (∀ (w' : World) (a j : Nat),
      isBad w' j = true → isBad (SetErase w' a) j = true) ∧
    (∀ (w' : World) (a j : Nat),
      isBad w' j = true → isBad (SetNotErase w' a) j = true) ∧
    (∀ (w' : World) (a c j : Nat),
      isBad w' j = true → isBad (AddChild w' a c) j = true) ∧
    (∀ (w' : World) (a c j : Nat),
      isBad w' j = true → isBad (EraseChild w' a c) j = true) ∧
    (∀ (w' : World) (c p j : Nat),
      isBad w' j = true → isBad (ChangeParent w' c p) j = true) ∧
    (∀ (w' : World) (a e j : Nat),
      isBad w' j = true → isBad (AddLoopEdge w' a e) j = true) ∧
    (∀ (w' : World) (a e j : Nat),
      isBad w' j = true → isBad (AddMergeEdge w' a e) j = true) ∧
    (∀ (w' : World) (m a j : Nat),
      isBad w' j = true → isBad (EraseObservation w' m a) j = true) ∧
    (∀ (w' : World) (a : Nat) (spk spm spc : List Nat) (j : Nat),
      isBad w' j = true → isBad (PreSave w' a spk spm spc) j = true) ∧
    (∀ (w' : World) (a : Nat) (f1 f2 f3 : Nat → Nat) (j : Nat),
      isBad w' j = true → isBad (PostLoad w' a f1 f2 f3) j = true) := by
  refine ⟨setBadFlag_full_isBad w i kf hfind hroot hguard, ?_,
    fun w' a kfa hka x hx => ubc_excludes_bad w' a kfa hka x hx,
    fun w' a b wt j h => isBadMono_addConnection w' a b wt h,
    fun w' a b j h => isBadMono_eraseConnection w' a b h,
    fun w' a j h => isBadMono_ubc w' a h,
    fun w' a j h => isBadMono_updateConnections w' a h,
    fun w' a j h => isBadMono_setBadFlag w' a h,
    fun w' a j h => isBadMono_setErase w' a h,
    fun w' a j h => isBadMono_setNotErase w' a h,
    fun w' a c j h => isBadMono_addChild w' a c h,
    fun w' a c j h => isBadMono_eraseChild w' a c h,
    fun w' c p j h => isBadMono_changeParent w' c p h,
    fun w' a e j h => isBadMono_addLoopEdge w' a e h,
    fun w' a e j h => isBadMono_addMergeEdge w' a e h,
    fun w' m a j h => by rw [isBad_eraseObservation]; exact h,
    fun w' a spk spm spc j h => isBadMono_preSave w' a spk spm spc h,
    fun w' a f1 f2 f3 j h => isBadMono_postLoad w' a f1 f2 f3 h⟩
  intro p hp
  rw [setBadFlag_unguarded w i kf hfind hroot hguard]
  have hpi := hnotself p hp
  have h1 := absent_after_phase1 i kf.conn w hcons p hp
  constructor
  · rw [getConn_sbfTree _ i hpi, getConn_sbfEraseObservations]
    exact h1.1
  · rw [getOrdered_sbfTree _ i hpi, getOrdered_sbfEraseObservations]
    exact h1.2

theorem badFlag_monotone_and_absence_witness :
    isBad (SetBadFlag wC4 1) 1 = true ∧
    mapLookup 1 (getConn (SetBadFlag wC4 1) 2) = none ∧
    1 ∉ getOrdered (SetBadFlag wC4 1) 2 := by
  have h := badFlag_monotone_and_absence wC4 1
    { conn := [(2, 7)], orderedKFs := [2], orderedWs := [7] }
    (by decide) (by decide) (by decide) (by decide) (by decide)
  exact ⟨h.1, (h.2.1 (2, 7) (by decide)).1, (h.2.1 (2, 7) (by decide)).2⟩

/-- C4 counterexample: a stale one-sided edge (added on keyframe 2's side
only) survives `SetBadFlag 1` — keyframe 1 becomes bad yet keeps both its
entry in keyframe 2's weight map and its slot in keyframe 2's ordered
covisible vector, because the scrub loop only visits the dying keyframe's
own weight map. -/
theorem setBadFlag_stale_edge_counterexample :
    isBad (SetBadFlag (AddConnection twoKFW 2 1 5) 1) 1 = true ∧
    mapLookup 1 (getConn (SetBadFlag (AddConnection twoKFW 2 1 5) 1) 2) = some 5 ∧
    1 ∈ getOrdered (SetBadFlag (AddConnection twoKFW 2 1 5) 1) 2 := by
  decide

/-! ### The spanning-tree reattachment of `SetBadFlag` -/

theorem mem_setErase {x a : Nat} {l : List Nat} : x ∈ setErase a l ↔ x ∈ l ∧ x ≠ a := by
  unfold setErase
  rw [List.mem_filter]
  simp

theorem mem_setInsert {x a : Nat} {l : List Nat} : x ∈ setInsert a l ↔ x = a ∨ x ∈ l := by
  induction l with
  | nil => simp [setInsert]
  | cons y t ih =>
    unfold setInsert
    by_cases h1 : a < y
    · rw [if_pos h1]
      simp [List.mem_cons]
    · rw [if_neg h1]
      by_cases h2 : a = y
      · rw [if_pos h2]
        subst h2
        simp [List.mem_cons]
      · rw [if_neg h2]
        simp only [List.mem_cons, ih]
        tauto

theorem fmpBetter_iff (b : Option (Nat × Nat × Int)) (wt : Int) :
    fmpBetter b wt = true ↔ bestVal b < wt := by
  cases b with
  | none => simp [fmpBetter, bestVal]
  | some t =>
    obtain ⟨c, p, m⟩ := t
    simp [fmpBetter, bestVal]

theorem bestVal_fmpStep3 (w : World) (c v : Nat) (b3 : Option (Nat × Nat × Int)) (pc : Nat) :
    bestVal b3 ≤ bestVal (fmpStep3 w c v b3 pc) := by
  unfold fmpStep3
  by_cases h1 : v = pc
  · rw [if_pos h1]
    by_cases h2 : fmpBetter b3 (getWeight w c v) = true
    · rw [if_pos h2]
      exact le_of_lt ((fmpBetter_iff _ _).mp h2)
    · rw [if_neg h2]
  · rw [if_neg h1]

theorem bestVal_foldl {α : Type} (step : Option (Nat × Nat × Int) → α → Option (Nat × Nat × Int))
    (hstep : ∀ b a, bestVal b ≤ bestVal (step b a)) (l : List α)
    (b : Option (Nat × Nat × Int)) :
    bestVal b ≤ bestVal (l.foldl step b) := by
  induction l generalizing b with
  | nil => exact le_refl _
  | cons a t ih => exact le_trans (hstep b a) (ih _)

theorem bestVal_fmpStep2 (w : World) (cand : List Nat) (c : Nat)
    (b2 : Option (Nat × Nat × Int)) (v : Nat) :
    bestVal b2 ≤ bestVal (fmpStep2 w cand c b2 v) :=
  bestVal_foldl _ (fun b a => bestVal_fmpStep3 w c v b a) cand b2

theorem bestVal_fmpStep1 (w : World) (cand : List Nat) (b : Option (Nat × Nat × Int))
    (c : Nat) : bestVal b ≤ bestVal (fmpStep1 w cand b c) := by
  unfold fmpStep1
  split
  · exact le_refl _
  · split
    · exact le_refl _
    · exact bestVal_foldl _ (fun b2 v => bestVal_fmpStep2 w cand c b2 v) _ b

theorem foldl_coverage {α : Type} (step : Option (Nat × Nat × Int) → α → Option (Nat × Nat × Int))
    (hge : ∀ b a, bestVal b ≤ bestVal (step b a)) (f : α → Int) (P : α → Prop)
    (hcov : ∀ b a, P a → f a ≤ bestVal (step b a)) :
    ∀ (l : List α) (b : Option (Nat × Nat × Int)) (a : α), a ∈ l → P a →
      f a ≤ bestVal (l.foldl step b) := by
  intro l
  induction l with
  | nil => intro b a ha; exact absurd ha (List.not_mem_nil a)
  | cons x t ih =>
    intro b a ha hPa
    rw [List.foldl_cons]
    rcases List.mem_cons.mp ha with h1 | h2
    · subst h1
      exact le_trans (hcov b a hPa) (bestVal_foldl step hge t _)
    · exact ih _ a h2 hPa

theorem fmpStep3_coverage (w : World) (c v : Nat) (b3 : Option (Nat × Nat × Int)) (pc : Nat)
    (h : v = pc) : getWeight w c v ≤ bestVal (fmpStep3 w c v b3 pc) := by
  unfold fmpStep3
  rw [if_pos h]
  by_cases h2 : fmpBetter b3 (getWeight w c v) = true
  · rw [if_pos h2]
    exact le_refl _
  · rw [if_neg h2]
    exact le_of_not_lt (fun hlt => h2 ((fmpBetter_iff _ _).mpr hlt))

theorem fmpStep2_coverage (w : World) (cand : List Nat) (c : Nat)
    (b2 : Option (Nat × Nat × Int)) (v : Nat) (hv : v ∈ cand) :
    getWeight w c v ≤ bestVal (fmpStep2 w cand c b2 v) := by
  unfold fmpStep2
  exact foldl_coverage (fmpStep3 w c v) (bestVal_fmpStep3 w c v)
    (fun _ => getWeight w c v) (fun pc => v = pc)
    (fun b3 pc h => fmpStep3_coverage w c v b3 pc h) cand b2 v hv rfl

theorem fmpStep1_coverage (w : World) (cand : List Nat) (b : Option (Nat × Nat × Int))
    (c : Nat) (hbad : isBad w c = false) (kc : KF) (hkc : w.kfs c = some kc)
    (v : Nat) (hv : v ∈ kc.orderedKFs) (hvc : v ∈ cand) :
    getWeight w c v ≤ bestVal (fmpStep1 w cand b c) := by
  unfold fmpStep1
  rw [hbad]
  simp only [Bool.false_eq_true, if_false]
  rw [hkc]
  dsimp only
  exact foldl_coverage (fmpStep2 w cand c) (fun b2 v' => bestVal_fmpStep2 w cand c b2 v')
    (fun v' => getWeight w c v') (fun v' => v' ∈ cand)
    (fun b2 v' hv' => fmpStep2_coverage w cand c b2 v' hv') kc.orderedKFs b v hv hvc

theorem findMaxPair_coverage (w : World) (ch cand : List Nat) (c : Nat) (hc : c ∈ ch)
    (hbad : isBad w c = false) (kc : KF) (hkc : w.kfs c = some kc)
    (v : Nat) (hv : v ∈ kc.orderedKFs) (hvc : v ∈ cand) :
    getWeight w c v ≤ bestVal (findMaxPair w ch cand) := by
  unfold findMaxPair
  exact foldl_coverage (fmpStep1 w cand) (fun b a => bestVal_fmpStep1 w cand b a)
    (fun c' => getWeight w c' v)
    (fun c' => isBad w c' = false ∧ ∃ kc', w.kfs c' = some kc' ∧ v ∈ kc'.orderedKFs)
    (fun b c' hp => fmpStep1_coverage w cand b c' hp.1 hp.2.choose hp.2.choose_spec.1 v
      hp.2.choose_spec.2 hvc)
    ch none c hc ⟨hbad, kc, hkc, hv⟩

theorem fmpWF_none (w : World) (ch cand : List Nat) : fmpWF w ch cand none := by
  intro c p m h
  exact Option.noConfusion h

theorem foldl_wf {α : Type} (P : Option (Nat × Nat × Int) → Prop)
    (step : Option (Nat × Nat × Int) → α → Option (Nat × Nat × Int)) :
    ∀ (l : List α), (∀ b a, a ∈ l → P b → P (step b a)) →
      ∀ b, P b → P (l.foldl step b) := by
  intro l
  induction l with
  | nil => intro _ b h; exact h
  | cons x t ih =>
    intro hstep b h
    rw [List.foldl_cons]
    exact ih (fun b' a ha hb => hstep b' a (List.mem_cons_of_mem _ ha) hb) _
      (hstep b x (List.mem_cons_self _ _) h)

theorem fmpStep3_wf (w : World) (ch cand : List Nat) (c v : Nat) (hc : c ∈ ch)
    (b3 : Option (Nat × Nat × Int)) (pc : Nat) (hpc : pc ∈ cand)
    (h : fmpWF w ch cand b3) : fmpWF w ch cand (fmpStep3 w c v b3 pc) := by
  unfold fmpStep3
  by_cases h1 : v = pc
  · rw [if_pos h1]
    by_cases h2 : fmpBetter b3 (getWeight w c v) = true
    · rw [if_pos h2]
      intro c' p' m' he
      have h3 := Option.some.inj he
      injection h3 with h4 h5
      injection h5 with h6 h7
      subst h4
      subst h6
      subst h7
      exact ⟨hc, hpc, by rw [h1]⟩
    · rw [if_neg h2]
      exact h
  · rw [if_neg h1]
    exact h

theorem fmpStep2_wf (w : World) (ch cand : List Nat) (c v : Nat) (hc : c ∈ ch)
    (b2 : Option (Nat × Nat × Int)) (h : fmpWF w ch cand b2) :
    fmpWF w ch cand (fmpStep2 w cand c b2 v) := by
  unfold fmpStep2
  exact foldl_wf (fmpWF w ch cand) (fmpStep3 w c v) cand
    (fun b3 pc hpc hb => fmpStep3_wf w ch cand c v hc b3 pc hpc hb) b2 h

theorem fmpStep1_wf (w : World) (ch cand : List Nat) (b : Option (Nat × Nat × Int))
    (c : Nat) (hc : c ∈ ch) (h : fmpWF w ch cand b) :
    fmpWF w ch cand (fmpStep1 w cand b c) := by
  unfold fmpStep1
  split
  · exact h
  · split
    · exact h
    · exact foldl_wf (fmpWF w ch cand) (fmpStep2 w cand c) _
        (fun b2 v _ hb => fmpStep2_wf w ch cand c v hc b2 hb) b h

theorem findMaxPair_wf (w : World) (ch cand : List Nat) :
    fmpWF w ch cand (findMaxPair w ch cand) := by
  unfold findMaxPair
  exact foldl_wf (fmpWF w ch cand) (fmpStep1 w cand) ch
    (fun b c hcch hb => fmpStep1_wf w ch cand b c hcch hb) none (fmpWF_none w ch cand)

/-- Full specification of the pair selection: the triple is a (child,
candidate) pair at its stored weight, and that weight dominates the weight
of every (non-bad registered child, cached-covisible candidate) pair. -/
theorem findMaxPair_spec (w : World) (ch cand : List Nat) (c p : Nat) (m : Int)
    (h : findMaxPair w ch cand = some (c, p, m)) :
    c ∈ ch ∧ p ∈ cand ∧ m = getWeight w c p ∧
    ∀ c' ∈ ch, isBad w c' = false → ∀ kc', w.kfs c' = some kc' →
      ∀ v ∈ kc'.orderedKFs, v ∈ cand → getWeight w c' v ≤ m := by
  obtain ⟨h1, h2, h3⟩ := findMaxPair_wf w ch cand c p m h
  refine ⟨h1, h2, h3, ?_⟩
  intro c' hc' hbad kc' hkc' v hv hvc
  have hcov := findMaxPair_coverage w ch cand c' hc' hbad kc' hkc' v hv hvc
  rw [h] at hcov
  exact hcov

/-- When no pair beats the initial maximum −1, every (non-bad registered
child, cached-covisible candidate) pair has weight at most −1 (`bContinue`
stays false and the loop breaks). -/
theorem findMaxPair_none_spec (w : World) (ch cand : List Nat)
    (h : findMaxPair w ch cand = none) :
    ∀ c' ∈ ch, isBad w c' = false → ∀ kc', w.kfs c' = some kc' →
      ∀ v ∈ kc'.orderedKFs, v ∈ cand → getWeight w c' v ≤ -1 := by
  intro c' hc' hbad kc' hkc' v hv hvc
  have hcov := findMaxPair_coverage w ch cand c' hc' hbad kc' hkc' v hv hvc
  rw [h] at hcov
  exact hcov

theorem getParent_modKF_other (w : World) (a : Nat) (f : KF → KF) {b : Nat} (h : b ≠ a) :
    getParent (modKF w a f) b = getParent w b := by
  unfold getParent
  rw [kfs_modKF_other _ _ _ h]

theorem getParent_modKF_parentEq (w : World) (a : Nat) (f : KF → KF)
    (hf : ∀ k, (f k).parent = k.parent) (b : Nat) :
    getParent (modKF w a f) b = getParent w b := by
  unfold getParent
  by_cases hb : b = a
  · subst hb
    rw [kfs_modKF_self]
    cases w.kfs b <;> simp [hf]
  · rw [kfs_modKF_other _ _ _ hb]

theorem getChildren_modKF_childrenEq (w : World) (a : Nat) (f : KF → KF)
    (hf : ∀ k, (f k).children = k.children) (b : Nat) :
    getChildren (modKF w a f) b = getChildren w b := by
  unfold getChildren
  by_cases hb : b = a
  · subst hb
    rw [kfs_modKF_self]
    cases w.kfs b <;> simp [hf]
  · rw [kfs_modKF_other _ _ _ hb]

theorem getParent_ubc (w : World) (a b : Nat) :
    getParent (UpdateBestCovisibles w a) b = getParent w b := by
  unfold UpdateBestCovisibles
  split
  · rfl
  · dsimp only
    refine getParent_modKF_parentEq _ _ _ ?_ b
    exact fun k => rfl

theorem getChildren_ubc (w : World) (a b : Nat) :
    getChildren (UpdateBestCovisibles w a) b = getChildren w b := by
  unfold UpdateBestCovisibles
  split
  · rfl
  · dsimp only
    refine getChildren_modKF_childrenEq _ _ _ ?_ b
    exact fun k => rfl

theorem getParent_eraseConnection (w : World) (a c b : Nat) :
    getParent (EraseConnection w a c) b = getParent w b := by
  unfold EraseConnection
  split
  · rfl
  · split
    · refine (getParent_ubc _ _ _).trans ?_
      refine getParent_modKF_parentEq _ _ _ ?_ b
      exact fun k => rfl
    · rfl

theorem getChildren_eraseConnection (w : World) (a c b : Nat) :
    getChildren (EraseConnection w a c) b = getChildren w b := by
  unfold EraseConnection
  split
  · rfl
  · split
    · refine (getChildren_ubc _ _ _).trans ?_
      refine getChildren_modKF_childrenEq _ _ _ ?_ b
      exact fun k => rfl
    · rfl

theorem getParent_foldl {α : Type} (step : World → α → World)
    (h : ∀ wa a b, getParent (step wa a) b = getParent wa b) (l : List α) (w : World)
    (b : Nat) : getParent (l.foldl step w) b = getParent w b := by
  induction l generalizing w with
  | nil => rfl
  | cons a t ih =>
    rw [List.foldl_cons]
    exact (ih _).trans (h w a b)

theorem getChildren_foldl {α : Type} (step : World → α → World)
    (h : ∀ wa a b, getChildren (step wa a) b = getChildren wa b) (l : List α) (w : World)
    (b : Nat) : getChildren (l.foldl step w) b = getChildren w b := by
  induction l generalizing w with
  | nil => rfl
  | cons a t ih =>
    rw [List.foldl_cons]
    exact (ih _).trans (h w a b)

theorem getParent_sbfEraseConnections (w : World) (i : Nat) (conn : List (Nat × Int))
    (b : Nat) : getParent (sbfEraseConnections w i conn) b = getParent w b :=
  getParent_foldl _ (fun wa a b => getParent_eraseConnection wa a.1 i b) conn w b

theorem getChildren_sbfEraseConnections (w : World) (i : Nat) (conn : List (Nat × Int))
    (b : Nat) : getChildren (sbfEraseConnections w i conn) b = getChildren w b :=
  getChildren_foldl _ (fun wa a b => getChildren_eraseConnection wa a.1 i b) conn w b

theorem getParent_sbfEraseObservations (w : World) (i : Nat) (mpl : List (Option Nat))
    (b : Nat) : getParent (sbfEraseObservations w i mpl) b = getParent w b :=
  getParent_foldl _ (fun wa a b => by cases a <;> rfl) mpl w b

theorem getChildren_sbfEraseObservations (w : World) (i : Nat) (mpl : List (Option Nat))
    (b : Nat) : getChildren (sbfEraseObservations w i mpl) b = getChildren w b :=
  getChildren_foldl _ (fun wa a b => by cases a <;> rfl) mpl w b

/-- `sbfLeftoverFold` over a list not containing `b` leaves `b`'s parent
pointer untouched. -/
theorem getParent_sbfLeftoverFold_other (pp : Nat) :
    ∀ (lo : List Nat) (w4 : World) (b : Nat), b ∉ lo →
      getParent (sbfLeftoverFold w4 (some pp) lo) b = getParent w4 b := by
  intro lo
  induction lo with
  | nil => intro w4 b _; rfl
  | cons c t ih =>
    intro w4 b hb
    have hbc : b ≠ c := fun he => hb (he ▸ List.mem_cons_self c t)
    have hbt : b ∉ t := fun hm => hb (List.mem_cons_of_mem _ hm)
    rw [show sbfLeftoverFold w4 (some pp) (c :: t) =
        sbfLeftoverFold (ChangeParent w4 c pp) (some pp) t from rfl]
    rw [ih _ b hbt]
    unfold ChangeParent
    split
    · rfl
    · unfold AddChild
      refine (getParent_modKF_parentEq _ _ _ ?_ b).trans (getParent_modKF_other _ _ _ hbc)
      exact fun k => rfl

/-- `sbfLeftoverFold` hands every leftover child (registered and distinct
from the former parent) the former parent `pp`. -/
theorem sbfLeftoverFold_parents (pp : Nat) :
    ∀ (lo : List Nat) (w4 : World),
      (∀ c ∈ lo, (w4.kfs c).isSome) → (∀ c ∈ lo, c ≠ pp) →
      ∀ c ∈ lo, getParent (sbfLeftoverFold w4 (some pp) lo) c = some (some pp) := by
  intro lo
  induction lo with
  | nil => intro w4 _ _ c hc; exact absurd hc (List.not_mem_nil c)
  | cons x t ih =>
    intro w4 hreg hnp c hc
    rw [show sbfLeftoverFold w4 (some pp) (x :: t) =
        sbfLeftoverFold (ChangeParent w4 x pp) (some pp) t from rfl]
    have hregT : ∀ c' ∈ t, ((ChangeParent w4 x pp).kfs c').isSome := by
      intro c' hc'
      rw [kfsIsSome_changeParent]
      exact hreg c' (List.mem_cons_of_mem _ hc')
    have hnpT : ∀ c' ∈ t, c' ≠ pp := fun c' hc' => hnp c' (List.mem_cons_of_mem _ hc')
    rcases List.mem_cons.mp hc with h1 | h2
    · subst h1
      by_cases hct : c ∈ t
      · exact ih _ hregT hnpT c hct
      · rw [getParent_sbfLeftoverFold_other pp t _ c hct]
        have hpc : ¬ pp = c := fun he => hnp c (List.mem_cons_self c t) he.symm
        unfold ChangeParent
        rw [if_neg hpc]
        unfold AddChild
        refine (getParent_modKF_parentEq _ _ _ ?_ c).trans ?_
        · exact fun k => rfl
        · obtain ⟨kc, hkc⟩ := Option.isSome_iff_exists.mp (hreg c (List.mem_cons_self c t))
          unfold getParent
          rw [kfs_modKF_self, hkc]
          rfl
    · exact ih _ hregT hnpT c h2

/-- The locked tail of `sbfTree` after the reattachment loop, at a child
not among the leftovers: its parent pointer is what the loop left. -/
theorem tail_parent_other (W4 : World) (pp i c : Nat) (lo : List Nat) (hc : c ∉ lo) :
    getParent (modKF (EraseChild (sbfLeftoverFold W4 (some pp) lo) pp i) i
      (fun k => { k with bad := true })) c = getParent W4 c := by
  refine (getParent_modKF_parentEq _ _ _ ?_ c).trans ?_
  · exact fun k => rfl
  · unfold EraseChild
    refine (getParent_modKF_parentEq _ _ _ ?_ c).trans ?_
    · exact fun k => rfl
    · exact getParent_sbfLeftoverFold_other pp lo _ c hc

/-- The locked tail of `sbfTree` at a leftover child: its parent pointer is
the dying keyframe's former parent. -/
theorem tail_parent_leftover (W4 : World) (pp i c : Nat) (lo : List Nat) (hc : c ∈ lo)
    (hreg : ∀ c' ∈ lo, (W4.kfs c').isSome) (hnp : ∀ c' ∈ lo, c' ≠ pp) :
    getParent (modKF (EraseChild (sbfLeftoverFold W4 (some pp) lo) pp i) i
      (fun k => { k with bad := true })) c = some (some pp) := by
  refine (getParent_modKF_parentEq _ _ _ ?_ c).trans ?_
  · exact fun k => rfl
  · unfold EraseChild
    refine (getParent_modKF_parentEq _ _ _ ?_ c).trans ?_
    · exact fun k => rfl
    · exact sbfLeftoverFold_parents pp lo W4 hreg hnp c hc

/-- One iteration of the reattachment loop preserves the invariant: the
selected child is reparented onto a candidate, leaves the children set and
joins the candidates. -/
theorem rlInv_step (kfch : List Nat) (pp i : Nat)
    (hppi : pp ≠ i) (hik : i ∉ kfch)
    (w' : World) (cand : List Nat)
    (kfi : KF) (hkfi : w'.kfs i = some kfi)
    (hsub : ∀ c ∈ kfi.children, c ∈ kfch)
    (hcand : ∀ q ∈ cand, (q = pp ∨ q ∈ kfch) ∧ q ∉ kfi.children)
    (hdone : ∀ c ∈ kfch, c ∉ kfi.children →
      ∃ q, getParent w' c = some (some q) ∧ (q = pp ∨ q ∈ kfch))
    (hreg : ∀ c ∈ kfi.children, (w'.kfs c).isSome)
    (c0 p0 : Nat) (m0 : Int)
    (hfmp : findMaxPair w' kfi.children cand = some (c0, p0, m0)) :
    rlInv kfch pp i (EraseChild (ChangeParent w' c0 p0) i c0) (setInsert c0 cand) := by
  obtain ⟨hc0, hp0, -⟩ := findMaxPair_wf w' kfi.children cand c0 p0 m0 hfmp
  have hc0k : c0 ∈ kfch := hsub c0 hc0
  have hc0i : c0 ≠ i := fun he => hik (he ▸ hc0k)
  have hp0c0 : p0 ≠ c0 := fun he => (hcand p0 hp0).2 (he ▸ hc0)
  have hp0i : p0 ≠ i := by
    rcases (hcand p0 hp0).1 with h | h
    · rw [h]
      exact hppi
    · exact fun he => hik (he ▸ h)
  refine ⟨{ kfi with children := setErase c0 kfi.children }, ?_, ?_, ?_, ?_, ?_⟩
  · unfold EraseChild
    rw [kfs_modKF_self]
    unfold ChangeParent
    rw [if_neg hp0c0]
    unfold AddChild
    rw [kfs_modKF_other _ _ _ (Ne.symm hp0i), kfs_modKF_other _ _ _ (Ne.symm hc0i), hkfi]
    rfl
  · intro c hc
    exact hsub c (mem_setErase.mp hc).1
  · intro q hq
    rcases mem_setInsert.mp hq with h | h
    · subst h
      refine ⟨Or.inr hc0k, ?_⟩
      intro hmem
      exact (mem_setErase.mp hmem).2 rfl
    · exact ⟨(hcand q h).1, fun hmem => (hcand q h).2 (mem_setErase.mp hmem).1⟩
  · intro c hck hcnot
    by_cases hcc0 : c = c0
    · refine ⟨p0, ?_, (hcand p0 hp0).1⟩
      rw [hcc0]
      unfold EraseChild
      refine (getParent_modKF_parentEq _ _ _ ?_ c0).trans ?_
      · exact fun k => rfl
      · unfold ChangeParent
        rw [if_neg hp0c0]
        unfold AddChild
        refine (getParent_modKF_parentEq _ _ _ ?_ c0).trans ?_
        · exact fun k => rfl
        · obtain ⟨kc0, hkc0⟩ := Option.isSome_iff_exists.mp (hreg c0 hc0)
          unfold getParent
          rw [kfs_modKF_self, hkc0]
          rfl
    · have hcnot' : c ∉ kfi.children := fun hmem => hcnot (mem_setErase.mpr ⟨hmem, hcc0⟩)
      obtain ⟨q, hq1, hq2⟩ := hdone c hck hcnot'
      refine ⟨q, ?_, hq2⟩
      unfold EraseChild
      refine (getParent_modKF_parentEq _ _ _ ?_ c).trans ?_
      · exact fun k => rfl
      · unfold ChangeParent
        rw [if_neg hp0c0]
        unfold AddChild
        refine (getParent_modKF_parentEq _ _ _ ?_ c).trans ?_
        · exact fun k => rfl
        · exact (getParent_modKF_other _ _ _ hcc0).trans hq1
  · intro c hc
    rw [kfsIsSome_eraseChild, kfsIsSome_changeParent]
    exact hreg c (mem_setErase.mp hc).1

/-- The reattachment loop preserves the invariant for any fuel. -/
theorem rlInv_loop (kfch : List Nat) (pp i : Nat)
    (hppi : pp ≠ i) (hik : i ∉ kfch) :
    ∀ (fuel : Nat) (w' : World) (cand : List Nat), rlInv kfch pp i w' cand →
      ∃ cand2, rlInv kfch pp i (reparentLoop fuel w' i cand) cand2 := by
  intro fuel
  induction fuel with
  | zero => intro w' cand h; exact ⟨cand, h⟩
  | succ n ih =>
    intro w' cand h
    obtain ⟨kfi, hkfi, hsub, hcand, hdone, hreg⟩ := h
    unfold reparentLoop
    rw [hkfi]
    dsimp only
    by_cases hch : kfi.children = []
    · rw [if_pos hch]
      exact ⟨cand, kfi, hkfi, hsub, hcand, hdone, hreg⟩
    · rw [if_neg hch]
      cases hfmp : findMaxPair w' kfi.children cand with
      | none => exact ⟨cand, kfi, hkfi, hsub, hcand, hdone, hreg⟩
      | some tup =>
        obtain ⟨c0, p0, m0⟩ := tup
        exact ih _ _ (rlInv_step kfch pp i hppi hik w' cand kfi hkfi hsub hcand hdone
          hreg c0 p0 m0 hfmp)

/-- End-to-end reattachment through `sbfTree` : every original child ends
with a non-null parent drawn from the former parent and the original
sibling set. -/
theorem sbfTree_parents (W2 : World) (i : Nat) (kf2 : KF) (pp : Nat)
    (hkf2 : W2.kfs i = some kf2)
    (hpar : kf2.parent = some pp)
    (hpp : pp ∉ kf2.children) (hppi : pp ≠ i) (hik : i ∉ kf2.children)
    (hreg : ∀ c ∈ kf2.children, (W2.kfs c).isSome) :
    ∀ c ∈ kf2.children, ∃ q, getParent (sbfTree W2 i) c = some (some q) ∧
      (q = pp ∨ q ∈ kf2.children) := by
  intro c hc
  unfold sbfTree
  rw [hkf2]
  dsimp only
  rw [hpar]
  dsimp only
  have hinv0 : rlInv kf2.children pp i
      (modKF W2 i (fun k => { k with conn := [], orderedKFs := [] })) [pp] := by
    refine ⟨{ kf2 with conn := [], orderedKFs := [] }, ?_, ?_, ?_, ?_, ?_⟩
    · rw [kfs_modKF_self, hkf2]
      rfl
    · exact fun c' hc' => hc'
    · intro q hq
      have hqpp : q = pp := List.mem_singleton.mp hq
      subst hqpp
      exact ⟨Or.inl rfl, hpp⟩
    · intro c' h1 h2
      exact absurd h1 h2
    · intro c' hc'
      rw [kfsIsSome_modKF]
      exact hreg c' hc'
  obtain ⟨cand4, kfi4, hkfi4, hsub4, hcand4, hdone4, hreg4⟩ :=
    rlInv_loop kf2.children pp i hppi hik kf2.children.length _ _ hinv0
  rw [hkfi4]
  dsimp only
  by_cases hcl : c ∈ kfi4.children
  · refine ⟨pp, ?_, Or.inl rfl⟩
    refine tail_parent_leftover _ pp i c kfi4.children hcl hreg4 ?_
    intro c' hc'
    exact fun he => hpp (he ▸ hsub4 c' hc')
  · obtain ⟨q, hq1, hq2⟩ := hdone4 c hc hcl
    exact ⟨q, (tail_parent_other _ pp i c kfi4.children hcl).trans hq1, hq2⟩

/-- C2: after `SetBadFlag` on an unguarded non-root keyframe with a parent,
every (registered) former child ends with a non-null parent drawn from the
former parent and the original sibling set; the loop's selection is exactly
the globally maximal (child, candidate) covisibility pair — `findMaxPair`
returns a (child, candidate) pair at its stored weight dominating every
other (non-bad child, cached candidate) pair, and returns `none` exactly
when no pair beats the initial maximum −1, which sends the leftover
children to the former parent. -/
theorem setBadFlag_reattaches_children (w : World) (i : Nat) (kf : KF) (pp : Nat)
    (hfind : w.kfs i = some kf)
    (hroot : i ≠ w.initKFid)
    (hguard : kf.notErase = false)
    (hpar : kf.parent = some pp)
    (hppnc : pp ∉ kf.children)
    (hppi : pp ≠ i)
    (hinc : i ∉ kf.children)
    (hreg : ∀ c ∈ kf.children, (w.kfs c).isSome) :
    (∀ c ∈ kf.children, ∃ q, getParent (SetBadFlag w i) c = some (some q) ∧
      (q = pp ∨ q ∈ kf.children)) ∧
    (∀ (w' : World) (ch cand : List Nat) (c p : Nat) (m : Int),
      findMaxPair w' ch cand = some (c, p, m) →
      c ∈ ch ∧ p ∈ cand ∧ m = getWeight w' c p ∧
      ∀ c' ∈ ch, isBad w' c' = false → ∀ kc', w'.kfs c' = some kc' →
        ∀ v ∈ kc'.orderedKFs, v ∈ cand → getWeight w' c' v ≤ m) ∧
    (∀ (w' : World) (ch cand : List Nat),
      findMaxPair w' ch cand = none →
      ∀ c' ∈ ch, isBad w' c' = false → ∀ kc', w'.kfs c' = some kc' →
        ∀ v ∈ kc'.orderedKFs, v ∈ cand → getWeight w' c' v ≤ -1) := by
  refine ⟨?_, fun w' ch cand c p m h => findMaxPair_spec w' ch cand c p m h,
    fun w' ch cand h => findMaxPair_none_spec w' ch cand h⟩
  rw [setBadFlag_unguarded w i kf hfind hroot hguard]
  have hs1 : ((sbfEraseObservations (sbfEraseConnections w i kf.conn) i
      kf.mapPoints).kfs i).isSome := by
    rw [kfsIsSome_sbfEraseObservations, kfsIsSome_sbfEraseConnections, hfind]
    rfl
  obtain ⟨kf2, hkf2⟩ := Option.isSome_iff_exists.mp hs1
  have hp2 : kf2.parent = kf.parent := by
    have h := (getParent_sbfEraseObservations (sbfEraseConnections w i kf.conn) i
      kf.mapPoints i).trans (getParent_sbfEraseConnections w i kf.conn i)
    unfold getParent at h
    rw [hkf2, hfind] at h
    simp only [Option.map_some'] at h
    exact Option.some.inj h
  have hc2 : kf2.children = kf.children := by
    have h := (getChildren_sbfEraseObservations (sbfEraseConnections w i kf.conn) i
      kf.mapPoints i).trans (getChildren_sbfEraseConnections w i kf.conn i)
    unfold getChildren at h
    rw [hkf2, hfind] at h
    simp only [Option.map_some'] at h
    exact Option.some.inj h
  intro c hc
  have hregW2 : ∀ c' ∈ kf2.children,
      ((sbfEraseObservations (sbfEraseConnections w i kf.conn) i
        kf.mapPoints).kfs c').isSome := by
    intro c' hc'
    rw [kfsIsSome_sbfEraseObservations, kfsIsSome_sbfEraseConnections]
    refine hreg c' ?_
    rw [← hc2]
    exact hc'
  have hmain := sbfTree_parents _ i kf2 pp hkf2 (hp2.trans hpar)
    (show pp ∉ kf2.children by rw [hc2]; exact hppnc) hppi
    (show i ∉ kf2.children by rw [hc2]; exact hinc) hregW2 c
    (show c ∈ kf2.children by rw [hc2]; exact hc)
  obtain ⟨q, h1, h2⟩ := hmain
  refine ⟨q, h1, ?_⟩
  rcases h2 with h | h
  · exact Or.inl h
  · refine Or.inr ?_
    rw [← hc2]
    exact h

theorem setBadFlag_reattaches_children_witness :
    ∃ q, getParent (SetBadFlag wC2 1) 2 = some (some q) ∧ (q = 9 ∨ q ∈ [2, 3]) := by
  have h := setBadFlag_reattaches_children wC2 1
    { parent := some 9, children := [2, 3] } 9
    (by decide) (by decide) (by decide) (by decide) (by decide) (by decide) (by decide)
    (by decide)
  exact h.1 2 (by decide)

/-! ### The ordered-cache invariant and `GetCovisiblesByWeight` -/

theorem filter_nil_of_all {α : Type} (p : α → Bool) :
    ∀ l : List α, (∀ a ∈ l, p a = false) → l.filter p = [] := by
  intro l
  induction l with
  | nil => intro _; rfl
  | cons x t ih =>
    intro h
    rw [List.filter_cons, h x (List.mem_cons_self x t)]
    simp only [Bool.false_eq_true, if_false]
    exact ih (fun a ha => h a (List.mem_cons_of_mem _ ha))

/-- Positional indexing with the `upper_bound` count on sorted parallel
vectors equals filtering the zipped vectors by the threshold. -/
theorem take_takeWhile_zip (wt : Int) :
    ∀ (ws : List Int) (kfs : List Nat), kfs.length = ws.length → ws.Pairwise (· ≥ ·) →
      kfs.take (ws.takeWhile (fun x => wt ≤ x)).length
        = ((kfs.zip ws).filter (fun p => wt ≤ p.2)).map (·.1) := by
  intro ws
  induction ws with
  | nil =>
    intro kfs hlen _
    have h0 : kfs = [] := List.length_eq_zero.mp (by rw [hlen]; rfl)
    subst h0
    rfl
  | cons x xs ih =>
    intro kfs hlen hsort
    cases kfs with
    | nil => exact absurd hlen (by simp)
    | cons k ks =>
      have hlen' : ks.length = xs.length := by simpa using hlen
      rw [List.pairwise_cons] at hsort
      rw [List.zip_cons_cons, List.takeWhile_cons, List.filter_cons]
      by_cases hx : wt ≤ x
      · have hxd : (decide (wt ≤ x)) = true := decide_eq_true hx
        rw [hxd]
        simp only [if_true]
        rw [List.length_cons, List.take_succ_cons, List.map_cons]
        rw [ih ks hlen' hsort.2]
      · have hxd : (decide (wt ≤ x)) = false := decide_eq_false hx
        rw [hxd]
        simp only [Bool.false_eq_true, if_false]
        rw [List.length_nil, List.take_zero]
        rw [filter_nil_of_all _ (ks.zip xs) ?_]
        · rfl
        · intro p hp
          have hb := (List.of_mem_zip hp).2
          have hge : x ≥ p.2 := hsort.1 p.2 hb
          exact decide_eq_false (fun hle => hx (le_trans hle hge))

/-- The reversed ascending sort is non-increasing on first components. -/
theorem sortedPairs_fst_ge (l : List (Int × Nat)) :
    ((List.insertionSort pairLe l).reverse).Pairwise
      (fun p q : Int × Nat => p.1 ≥ q.1) := by
  rw [List.pairwise_reverse]
  refine List.Pairwise.imp ?_ (List.sorted_insertionSort pairLe l)
  intro a b hab
  rcases hab with h | ⟨h, _⟩
  · exact le_of_lt h
  · exact le_of_eq h

/-- The rebuilt pair list of `UpdateBestCovisibles` is non-increasing on
weights. -/
theorem ubcPairs_fst_ge (w : World) (conn : List (Nat × Int)) :
    (ubcPairs w conn).Pairwise (fun p q : Int × Nat => p.1 ≥ q.1) := by
  unfold ubcPairs
  rw [List.pairwise_reverse]
  refine List.Pairwise.imp ?_ ((List.sorted_insertionSort pairLe _).filter _)
  intro a b hab
  rcases hab with h | ⟨h, _⟩
  · exact le_of_lt h
  · exact le_of_eq h

/-- `UpdateBestCovisibles` establishes the ordered-cache invariant on its
target keyframe. -/
theorem ubc_establishes (w : World) (a : Nat) : ordInvAt (UpdateBestCovisibles w a) a := by
  unfold UpdateBestCovisibles
  cases hkf : w.kfs a with
  | none =>
    intro k hk
    rw [hkf] at hk
    exact Option.noConfusion hk
  | some kf =>
    dsimp only
    intro k hk
    rw [kfs_modKF_self, hkf] at hk
    simp only [Option.map_some'] at hk
    rw [← Option.some.inj hk]
    constructor
    · simp
    · exact (ubcPairs_fst_ge w kf.conn).map _ (fun a b h => h)

theorem ordInvAt_congr {w1 w2 : World} {c : Nat} (he : w1.kfs c = w2.kfs c)
    (h : ordInvAt w2 c) : ordInvAt w1 c := by
  intro k hk
  rw [he] at hk
  exact h k hk

theorem ordInvAt_modKF (w : World) (a : Nat) (f : KF → KF)
    (hf : ∀ k, (f k).orderedKFs = k.orderedKFs ∧ (f k).orderedWs = k.orderedWs)
    (c : Nat) (h : ordInvAt w c) : ordInvAt (modKF w a f) c := by
  intro k hk
  rw [modKF_kfs] at hk
  by_cases hc : c = a
  · rw [if_pos hc] at hk
    cases hw : w.kfs c with
    | none => rw [hw] at hk; exact Option.noConfusion hk
    | some k0 =>
      rw [hw] at hk
      simp only [Option.map_some'] at hk
      have h0 := h k0 hw
      rw [← Option.some.inj hk]
      exact ⟨by rw [(hf k0).1, (hf k0).2]; exact h0.1, by rw [(hf k0).2]; exact h0.2⟩
  · rw [if_neg hc] at hk
    exact h k hk

theorem ordInvAt_ubc (w : World) (a c : Nat) (h : ordInvAt w c) :
    ordInvAt (UpdateBestCovisibles w a) c := by
  by_cases hca : c = a
  · subst hca
    exact ubc_establishes w c
  · exact ordInvAt_congr (kfs_ubc_other w a hca) h

theorem ordInvAt_addConnection (w : World) (a b : Nat) (x : Int) (c : Nat)
    (h : ordInvAt w c) : ordInvAt (AddConnection w a b x) c := by
  by_cases hca : c = a
  · subst hca
    unfold AddConnection
    split
    · exact h
    · split
      · exact ubc_establishes _ c
      · split
        · exact ubc_establishes _ c
        · exact h
  · exact ordInvAt_congr (kfs_addConnection_other w a b x hca) h

theorem ordInvAt_eraseConnection (w : World) (a b c : Nat)
    (h : ordInvAt w c) : ordInvAt (EraseConnection w a b) c := by
  by_cases hca : c = a
  · subst hca
    unfold EraseConnection
    split
    · exact h
    · split
      · exact ubc_establishes _ c
      · exact h
  · exact ordInvAt_congr (kfs_eraseConnection_other w a b hca) h

theorem ordInvAt_foldl {α : Type} (step : World → α → World)
    (h : ∀ wa a c, ordInvAt wa c → ordInvAt (step wa a) c)
    (l : List α) (w : World) (c : Nat) (h0 : ordInvAt w c) :
    ordInvAt (l.foldl step w) c := by
  induction l generalizing w with
  | nil => exact h0
  | cons a t ih =>
    rw [List.foldl_cons]
    exact ih _ (h w a c h0)

theorem ordInvAt_ucPromote (w : World) (i : Nat) (counter : List (Nat × Int)) (c : Nat)
    (h : ordInvAt w c) : ordInvAt (ucPromote w i counter) c := by
  unfold ucPromote
  refine ordInvAt_foldl _ ?_ counter w c h
  intro wa a c' h'
  by_cases hp : a.2 ≥ 15
  · rw [if_pos hp]
    exact ordInvAt_addConnection wa a.1 i a.2 c' h'
  · rw [if_neg hp]
    exact h'

theorem ordInvAt_ucFirstConn (w3 : World) (i : Nat) (first : Bool) (init : Nat)
    (top : Option Nat) (c : Nat) (h : ordInvAt w3 c) :
    ordInvAt (ucFirstConn w3 i first init top) c := by
  unfold ucFirstConn
  split
  · split
    · unfold AddChild
      refine ordInvAt_modKF _ _ _ ?_ c (ordInvAt_modKF _ _ _ ?_ c h)
      · exact fun k => ⟨rfl, rfl⟩
      · exact fun k => ⟨rfl, rfl⟩
    · exact h
  · exact h

/-- `ucAssign` with the reversed-sorted promoted pairs establishes the
ordered-cache invariant on its target keyframe. -/
theorem ucAssign_establishes (w2 : World) (i : Nat) (counter : List (Nat × Int))
    (l : List (Int × Nat)) :
    ordInvAt (ucAssign w2 i counter ((List.insertionSort pairLe l).reverse)) i := by
  unfold ucAssign
  intro k hk
  rw [kfs_modKF_self] at hk
  cases hw : w2.kfs i with
  | none => rw [hw] at hk; exact Option.noConfusion hk
  | some k0 =>
    rw [hw] at hk
    simp only [Option.map_some'] at hk
    rw [← Option.some.inj hk]
    constructor
    · simp
    · exact (sortedPairs_fst_ge l).map _ (fun a b h => h)

theorem ordInvAt_ucAssign_other (w2 : World) (i : Nat) (counter : List (Nat × Int))
    (ordered : List (Int × Nat)) {c : Nat} (hci : c ≠ i) (h : ordInvAt w2 c) :
    ordInvAt (ucAssign w2 i counter ordered) c := by
  unfold ucAssign
  exact ordInvAt_congr (kfs_modKF_other _ _ _ hci) h

theorem ordInvAt_updateConnections (w : World) (a c : Nat) (h : ordInvAt w c) :
    ordInvAt (UpdateConnections w a) c := by
  unfold UpdateConnections
  split
  · exact h
  · dsimp only
    split
    · exact h
    · refine ordInvAt_ucFirstConn _ _ _ _ _ c ?_
      by_cases hca : c = a
      · subst hca
        exact ucAssign_establishes _ c _ _
      · refine ordInvAt_ucAssign_other _ _ _ _ hca ?_
        split
        · split
          · exact ordInvAt_addConnection _ _ _ _ c (ordInvAt_ucPromote _ _ _ c h)
          · exact ordInvAt_ucPromote _ _ _ c h
        · exact ordInvAt_ucPromote _ _ _ c h

theorem ordInvAt_postLoad (w : World) (a : Nat) (f1 f2 f3 : Nat → Nat) (c : Nat)
    (h : ordInvAt w c) : ordInvAt (PostLoad w a f1 f2 f3) c := by
  unfold PostLoad
  split
  · exact h
  · dsimp only
    by_cases hca : c = a
    · subst hca
      exact ubc_establishes _ c
    · exact ordInvAt_congr ((kfs_ubc_other _ _ hca).trans (kfs_modKF_other _ _ _ hca)) h

/-- Under the ordered-cache invariant, `GetCovisiblesByWeight` returns
exactly the cached neighbors whose cached weight reaches the threshold. -/
theorem getCovisibles_filter (w : World) (i : Nat) (wt : Int) (kf : KF)
    (hkf : w.kfs i = some kf) (hinv : ordInvAt w i) :
    GetCovisiblesByWeight w i wt =
      ((kf.orderedKFs.zip kf.orderedWs).filter (fun p => wt ≤ p.2)).map (·.1) := by
  obtain ⟨hlen, hsort⟩ := hinv kf hkf
  unfold GetCovisiblesByWeight
  rw [hkf]
  dsimp only
  by_cases hkfs : kf.orderedKFs = []
  · rw [if_pos hkfs, hkfs]
    rfl
  · rw [if_neg hkfs]
    have hws : kf.orderedWs ≠ [] := by
      intro he
      rw [he] at hlen
      exact hkfs (List.length_eq_zero.mp hlen)
    have hdead : ¬((kf.orderedWs.takeWhile (fun x => wt ≤ x)).length =
        kf.orderedWs.length ∧ (kf.orderedWs.getLast?.getD 0) < wt) := by
      rintro ⟨h1, h2⟩
      have heq : kf.orderedWs.takeWhile (fun x => wt ≤ x) = kf.orderedWs :=
        (List.takeWhile_prefix _).eq_of_length h1
      have hmem : kf.orderedWs.getLast hws ∈
          kf.orderedWs.takeWhile (fun x => wt ≤ x) := by
        rw [heq]
        exact List.getLast_mem hws
      have hp := List.mem_takeWhile_imp hmem
      have hle : wt ≤ kf.orderedWs.getLast hws := by simpa using hp
      rw [List.getLast?_eq_getLast _ hws, Option.getD_some] at h2
      exact absurd h2 (not_lt.mpr hle)
    rw [if_neg hdead]
    exact take_takeWhile_zip wt kf.orderedWs kf.orderedKFs hlen hsort

/-- C10: every operation that rewrites the cached covisibility ordering
(`UpdateBestCovisibles`, `AddConnection`, `EraseConnection`,
`UpdateConnections`, `PostLoad`) establishes or preserves the invariant
that the ordered keyframe and weight vectors have equal length with
non-increasing weights, and under that invariant
`GetCovisiblesByWeight`'s positional indexing returns exactly the cached
neighbors whose cached weight is at least the threshold. -/
theorem orderedCache_invariant_query :
    (∀ (w : World) (a : Nat), ordInvAt (UpdateBestCovisibles w a) a) ∧
    (∀ (w : World) (a c : Nat), ordInvAt w c → ordInvAt (UpdateBestCovisibles w a) c) ∧
    (∀ (w : World) (a b : Nat) (x : Int) (c : Nat),
      ordInvAt w c → ordInvAt (AddConnection w a b x) c) ∧
    (∀ (w : World) (a b c : Nat), ordInvAt w c → ordInvAt (EraseConnection w a b) c) ∧
    (∀ (w : World) (a c : Nat), ordInvAt w c → ordInvAt (UpdateConnections w a) c) ∧
    (∀ (w : World) (a : Nat) (f1 f2 f3 : Nat → Nat) (c : Nat),
      ordInvAt w c → ordInvAt (PostLoad w a f1 f2 f3) c) ∧
    (∀ (w : World) (i : Nat) (wt : Int) (kf : KF), w.kfs i = some kf → ordInvAt w i →
      GetCovisiblesByWeight w i wt =
        ((kf.orderedKFs.zip kf.orderedWs).filter (fun p => wt ≤ p.2)).map (·.1)) :=
  ⟨fun w a => ubc_establishes w a,
   fun w a c h => ordInvAt_ubc w a c h,
   fun w a b x c h => ordInvAt_addConnection w a b x c h,
   fun w a b c h => ordInvAt_eraseConnection w a b c h,
   fun w a c h => ordInvAt_updateConnections w a c h,
   fun w a f1 f2 f3 c h => ordInvAt_postLoad w a f1 f2 f3 c h,
   fun w i wt kf hkf hinv => getCovisibles_filter w i wt kf hkf hinv⟩

theorem orderedCache_invariant_query_witness :
    GetCovisiblesByWeight wC4 1 5 = [2] := by
  have h := orderedCache_invariant_query.2.2.2.2.2.2 wC4 1 5
    { conn := [(2, 7)], orderedKFs := [2], orderedWs := [7] } rfl
    (fun k hk => Option.some.inj hk ▸ ⟨rfl, by simp⟩)
  rw [h]
  decide

/-! ### The `PreSave` / `PostLoad` round trip -/

theorem filter_self_of_all {α : Type} (p : α → Bool) :
    ∀ l : List α, (∀ a ∈ l, p a = true) → l.filter p = l := by
  intro l
  induction l with
  | nil => intro _; rfl
  | cons x t ih =>
    intro h
    rw [List.filter_cons, h x (List.mem_cons_self x t)]
    simp only [if_true]
    rw [ih (fun a ha => h a (List.mem_cons_of_mem _ ha))]

/-- Inserting a key above every stored key appends. -/
theorem mapInsert_append (k : Nat) (v : Int) :
    ∀ l : List (Nat × Int), (∀ p ∈ l, p.1 < k) → mapInsert k v l = l ++ [(k, v)] := by
  intro l
  induction l with
  | nil => intro _; rfl
  | cons q t ih =>
    intro h
    obtain ⟨qk, qv⟩ := q
    have hq : qk < k := h (qk, qv) (List.mem_cons_self _ t)
    unfold mapInsert
    rw [if_neg (by omega : ¬ k < qk), if_neg (by omega : ¬ k = qk)]
    rw [ih (fun p hp => h p (List.mem_cons_of_mem _ hp))]
    rfl

/-- Rebuilding a strictly-ascending weight map by repeated `std::map`
insertion reproduces it. -/
theorem foldl_mapInsert_asc :
    ∀ (l acc : List (Nat × Int)), (∀ p ∈ acc, ∀ q ∈ l, p.1 < q.1) →
      l.Pairwise (fun p q : Nat × Int => p.1 < q.1) →
      l.foldl (fun acc p => mapInsert p.1 p.2 acc) acc = acc ++ l := by
  intro l
  induction l with
  | nil => intro acc _ _; rw [List.foldl_nil, List.append_nil]
  | cons q t ih =>
    intro acc hcross hsort
    rw [List.pairwise_cons] at hsort
    rw [List.foldl_cons]
    have h1 : mapInsert q.1 q.2 acc = acc ++ [q] :=
      mapInsert_append q.1 q.2 acc (fun p hp => hcross p hp q (List.mem_cons_self q t))
    rw [h1, ih (acc ++ [q]) ?_ hsort.2]
    · rw [List.append_assoc]
      rfl
    · intro p hp r hr
      rcases List.mem_append.mp hp with h | h
      · exact hcross p h r (List.mem_cons_of_mem _ hr)
      · have hpq : p = q := by simpa using h
        rw [hpq]
        exact hsort.1 r hr

/-- Inserting an element above every stored element appends. -/
theorem setInsert_append (k : Nat) :
    ∀ l : List Nat, (∀ x ∈ l, x < k) → setInsert k l = l ++ [k] := by
  intro l
  induction l with
  | nil => intro _; rfl
  | cons y t ih =>
    intro h
    have hy : y < k := h y (List.mem_cons_self y t)
    unfold setInsert
    rw [if_neg (by omega : ¬ k < y), if_neg (by omega : ¬ k = y)]
    rw [ih (fun x hx => h x (List.mem_cons_of_mem _ hx))]
    rfl

/-- Rebuilding a strictly-ascending set by repeated `std::set` insertion
reproduces it. -/
theorem foldl_setInsert_asc :
    ∀ (l acc : List Nat), (∀ x ∈ acc, ∀ y ∈ l, x < y) → l.Pairwise (· < ·) →
      l.foldl (fun s c => setInsert c s) acc = acc ++ l := by
  intro l
  induction l with
  | nil => intro acc _ _; rw [List.foldl_nil, List.append_nil]
  | cons y t ih =>
    intro acc hcross hsort
    rw [List.pairwise_cons] at hsort
    rw [List.foldl_cons]
    have h1 : setInsert y acc = acc ++ [y] :=
      setInsert_append y acc (fun x hx => hcross x hx y (List.mem_cons_self y t))
    rw [h1, ih (acc ++ [y]) ?_ hsort.2]
    · rw [List.append_assoc]
      rfl
    · intro x hx r hr
      rcases List.mem_append.mp hx with h | h
      · exact hcross x h r (List.mem_cons_of_mem _ hr)
      · have hxy : x = y := by simpa using h
        rw [hxy]
        exact hsort.1 r hr

/-- `ubcPairs` only consults the world through `isBad`. -/
theorem ubcPairs_congr {w1 w2 : World} (h : ∀ j, isBad w1 j = isBad w2 j)
    (conn : List (Nat × Int)) : ubcPairs w1 conn = ubcPairs w2 conn := by
  unfold ubcPairs
  congr 1
  refine List.filter_congr ?_
  intro a _
  rw [h a.2]

theorem isBad_modKF_badEq (w : World) (a : Nat) (f : KF → KF)
    (hf : ∀ k, (f k).bad = k.bad) (j : Nat) : isBad (modKF w a f) j = isBad w j := by
  unfold isBad
  rw [modKF_kfs]
  by_cases hj : j = a
  · rw [if_pos hj]
    cases hw : w.kfs j with
    | none => rfl
    | some k => exact hf k
  · rw [if_neg hj]

theorem isBad_modKF_const (w : World) (a : Nat) (kfa kfc : KF) (hkfa : w.kfs a = some kfa)
    (hbadeq : kfc.bad = kfa.bad) (j : Nat) :
    isBad (modKF w a (fun _ => kfc)) j = isBad w j := by
  unfold isBad
  rw [modKF_kfs]
  by_cases hj : j = a
  · rw [if_pos hj, hj, hkfa]
    exact hbadeq
  · rw [if_neg hj]

theorem getOrderedWs_ubc_self (w : World) (a : Nat) (kfa : KF) (h : w.kfs a = some kfa) :
    getOrderedWs (UpdateBestCovisibles w a) a = (ubcPairs w kfa.conn).map (·.1) := by
  unfold UpdateBestCovisibles
  rw [h]
  dsimp only
  unfold getOrderedWs
  rw [kfs_modKF_self, h]
  rfl

theorem getOrdered_ubc_modKF_const (w : World) (a : Nat) (kfa kfc : KF)
    (hkfa : w.kfs a = some kfa) (hbad : kfc.bad = kfa.bad) :
    getOrdered (UpdateBestCovisibles (modKF w a (fun _ => kfc)) a) a =
      (ubcPairs w kfc.conn).map (·.2) := by
  have hmid : (modKF w a (fun _ => kfc)).kfs a = some kfc := by
    rw [kfs_modKF_self, hkfa]
    rfl
  rw [getOrdered_ubc_self _ a kfc hmid]
  exact congrArg _ (ubcPairs_congr (isBad_modKF_const w a kfa kfc hkfa hbad) _)

theorem getOrderedWs_ubc_modKF_const (w : World) (a : Nat) (kfa kfc : KF)
    (hkfa : w.kfs a = some kfa) (hbad : kfc.bad = kfa.bad) :
    getOrderedWs (UpdateBestCovisibles (modKF w a (fun _ => kfc)) a) a =
      (ubcPairs w kfc.conn).map (·.1) := by
  have hmid : (modKF w a (fun _ => kfc)).kfs a = some kfc := by
    rw [kfs_modKF_self, hkfa]
    rfl
  rw [getOrderedWs_ubc_self _ a kfc hmid]
  exact congrArg _ (ubcPairs_congr (isBad_modKF_const w a kfa kfc hkfa hbad) _)

theorem getLoopEdges_ubc (w : World) (a b : Nat) :
    getLoopEdges (UpdateBestCovisibles w a) b = getLoopEdges w b := by
  unfold UpdateBestCovisibles
  split
  · rfl
  · dsimp only
    unfold getLoopEdges
    rw [modKF_kfs]
    by_cases hb : b = a
    · rw [if_pos hb]
      cases w.kfs b <;> rfl
    · rw [if_neg hb]

theorem getMergeEdges_ubc (w : World) (a b : Nat) :
    getMergeEdges (UpdateBestCovisibles w a) b = getMergeEdges w b := by
  unfold UpdateBestCovisibles
  split
  · rfl
  · dsimp only
    unfold getMergeEdges
    rw [modKF_kfs]
    by_cases hb : b = a
    · rw [if_pos hb]
      cases w.kfs b <;> rfl
    · rw [if_neg hb]

/-- The restored graph fields of `PostLoad` read off the backup
containers through the id dictionaries. -/
theorem postLoad_fields (w1 : World) (i : Nat) (kfP : KF) (hkfP : w1.kfs i = some kfP)
    (idKF idMP idCam : Nat → Nat) :
    getConn (PostLoad w1 i idKF idMP idCam) i =
      kfP.backupConnIdW.foldl (fun acc p => mapInsert (idKF p.1) p.2 acc) [] ∧
    getParent (PostLoad w1 i idKF idMP idCam) i =
      some (if kfP.backupParentId ≥ 0 then some (idKF kfP.backupParentId.toNat)
        else kfP.parent) ∧
    getChildren (PostLoad w1 i idKF idMP idCam) i =
      some (kfP.backupChildrenIds.foldl (fun s c => setInsert (idKF c) s) []) ∧
    getLoopEdges (PostLoad w1 i idKF idMP idCam) i =
      some (kfP.backupLoopIds.foldl (fun s c => setInsert (idKF c) s) []) ∧
    getMergeEdges (PostLoad w1 i idKF idMP idCam) i =
      some (kfP.backupMergeIds.foldl (fun s c => setInsert (idKF c) s) []) := by
  unfold PostLoad
  rw [hkfP]
  dsimp only
  refine ⟨?_, ?_, ?_, ?_, ?_⟩
  · rw [getConn_ubc]
    unfold getConn
    rw [kfs_modKF_self, hkfP]
    rfl
  · rw [getParent_ubc]
    unfold getParent
    rw [kfs_modKF_self, hkfP]
    rfl
  · rw [getChildren_ubc]
    unfold getChildren
    rw [kfs_modKF_self, hkfP]
    rfl
  · rw [getLoopEdges_ubc]
    unfold getLoopEdges
    rw [kfs_modKF_self, hkfP]
    rfl
  · rw [getMergeEdges_ubc]
    unfold getMergeEdges
    rw [kfs_modKF_self, hkfP]
    rfl

/-- The rebuilt ordered cache of `PostLoad` is the `UpdateBestCovisibles`
rebuild of the restored weight map (the bad flags are untouched, so the
filter may be read in the pre-`PostLoad` world). -/
theorem postLoad_ordered (w1 : World) (i : Nat) (kfP : KF) (hkfP : w1.kfs i = some kfP)
    (idKF idMP idCam : Nat → Nat) :
    getOrdered (PostLoad w1 i idKF idMP idCam) i =
      (ubcPairs w1 (kfP.backupConnIdW.foldl
        (fun acc p => mapInsert (idKF p.1) p.2 acc) [])).map (·.2) ∧
    getOrderedWs (PostLoad w1 i idKF idMP idCam) i =
      (ubcPairs w1 (kfP.backupConnIdW.foldl
        (fun acc p => mapInsert (idKF p.1) p.2 acc) [])).map (·.1) := by
  unfold PostLoad
  rw [hkfP]
  dsimp only
  constructor
  · exact getOrdered_ubc_modKF_const w1 i kfP _ hkfP rfl
  · exact getOrderedWs_ubc_modKF_const w1 i kfP _ hkfP rfl

/-- C8: for a keyframe whose cross-referenced keyframes are all in the
saved keyframe set (with the usual strictly-ascending `std::map` /
`std::set` representation), `PreSave` followed by `PostLoad` with identity
id dictionaries reproduces the covisibility weight map, parent, children,
loop-edge and merge-edge sets, and rebuilds the cached ordered covisible
vectors as the `UpdateBestCovisibles` projection of the restored weight
map. -/
theorem preSave_postLoad_roundtrip (w : World) (i : Nat) (kf : KF)
    (spKF spMP spCam : List Nat)
    (hfind : w.kfs i = some kf)
    (hconn : ∀ p ∈ kf.conn, spKF.contains p.1 = true)
    (hconnS : kf.conn.Pairwise (fun p q : Nat × Int => p.1 < q.1))
    (hparC : match kf.parent with
      | some p => spKF.contains p = true
      | none => True)
    (hch : ∀ c ∈ kf.children, spKF.contains c = true)
    (hchS : kf.children.Pairwise (· < ·))
    (hlp : ∀ c ∈ kf.loopEdges, spKF.contains c = true)
    (hlpS : kf.loopEdges.Pairwise (· < ·))
    (hmg : ∀ c ∈ kf.mergeEdges, spKF.contains c = true)
    (hmgS : kf.mergeEdges.Pairwise (· < ·)) :
    getConn (PostLoad (PreSave w i spKF spMP spCam) i (fun x => x) (fun x => x)
      (fun x => x)) i = kf.conn ∧
    getParent (PostLoad (PreSave w i spKF spMP spCam) i (fun x => x) (fun x => x)
      (fun x => x)) i = some kf.parent ∧
    getChildren (PostLoad (PreSave w i spKF spMP spCam) i (fun x => x) (fun x => x)
      (fun x => x)) i = some kf.children ∧
    getLoopEdges (PostLoad (PreSave w i spKF spMP spCam) i (fun x => x) (fun x => x)
      (fun x => x)) i = some kf.loopEdges ∧
    getMergeEdges (PostLoad (PreSave w i spKF spMP spCam) i (fun x => x) (fun x => x)
      (fun x => x)) i = some kf.mergeEdges ∧
    getOrdered (PostLoad (PreSave w i spKF spMP spCam) i (fun x => x) (fun x => x)
      (fun x => x)) i = (ubcPairs w kf.conn).map (·.2) ∧
    getOrderedWs (PostLoad (PreSave w i spKF spMP spCam) i (fun x => x) (fun x => x)
      (fun x => x)) i = (ubcPairs w kf.conn).map (·.1) := by
  have hW1 : (PreSave w i spKF spMP spCam).kfs i = some { kf with
      backupMPIds := kf.mapPoints.map (fun o =>
        match o with
        | some m => if spMP.contains m then (m : Int) else -1
        | none => -1),
      backupConnIdW := kf.conn.filter (fun p => spKF.contains p.1),
      backupParentId := match kf.parent with
        | some p => if spKF.contains p then (p : Int) else -1
        | none => -1,
      backupChildrenIds := kf.children.filter (fun c => spKF.contains c),
      backupLoopIds := kf.loopEdges.filter (fun c => spKF.contains c),
      backupMergeIds := kf.mergeEdges.filter (fun c => spKF.contains c),
      backupIdCamera := match kf.camera with
        | some c => if spCam.contains c then (c : Int) else -1
        | none => -1,
      backupIdCamera2 := match kf.camera2 with
        | some c => if spCam.contains c then (c : Int) else -1
        | none => -1,
      backupPrevKFId := match kf.prevKF with
        | some p => if spKF.contains p then (p : Int) else -1
        | none => -1,
      backupNextKFId := match kf.nextKF with
        | some p => if spKF.contains p then (p : Int) else -1
        | none => -1 } := by
    unfold PreSave
    rw [kfs_modKF_self, hfind]
    rfl
  obtain ⟨hConn, hPar, hCh, hLp, hMg⟩ :=
    postLoad_fields _ i _ hW1 (fun x => x) (fun x => x) (fun x => x)
  obtain ⟨hOrd, hOrdW⟩ :=
    postLoad_ordered _ i _ hW1 (fun x => x) (fun x => x) (fun x => x)
  have hconnEq : (kf.conn.filter (fun p => spKF.contains p.1)).foldl
      (fun acc p => mapInsert ((fun x : Nat => x) p.1) p.2 acc) ([] : List (Nat × Int)) =
      kf.conn := by
    rw [filter_self_of_all _ kf.conn hconn]
    exact (foldl_mapInsert_asc kf.conn []
      (fun p hp => absurd hp (List.not_mem_nil p)) hconnS).trans (List.nil_append kf.conn)
  have hchEq : (kf.children.filter (fun c => spKF.contains c)).foldl
      (fun s c => setInsert ((fun x : Nat => x) c) s) ([] : List Nat) = kf.children := by
    rw [filter_self_of_all _ kf.children hch]
    exact (foldl_setInsert_asc kf.children []
      (fun x hx => absurd hx (List.not_mem_nil x)) hchS).trans (List.nil_append kf.children)
  have hlpEq : (kf.loopEdges.filter (fun c => spKF.contains c)).foldl
      (fun s c => setInsert ((fun x : Nat => x) c) s) ([] : List Nat) = kf.loopEdges := by
    rw [filter_self_of_all _ kf.loopEdges hlp]
    exact (foldl_setInsert_asc kf.loopEdges []
      (fun x hx => absurd hx (List.not_mem_nil x)) hlpS).trans (List.nil_append kf.loopEdges)
  have hmgEq : (kf.mergeEdges.filter (fun c => spKF.contains c)).foldl
      (fun s c => setInsert ((fun x : Nat => x) c) s) ([] : List Nat) = kf.mergeEdges := by
    rw [filter_self_of_all _ kf.mergeEdges hmg]
    exact (foldl_setInsert_asc kf.mergeEdges []
      (fun x hx => absurd hx (List.not_mem_nil x)) hmgS).trans (List.nil_append kf.mergeEdges)
  have hparEq : (if (match kf.parent with
      | some p => if spKF.contains p then (p : Int) else -1
      | none => -1) ≥ 0 then
        some ((fun x : Nat => x) (match kf.parent with
          | some p => if spKF.contains p then (p : Int) else -1
          | none => -1).toNat)
      else kf.parent) = kf.parent := by
    cases hp : kf.parent with
    | none =>
      dsimp only
      rw [if_neg (by decide : ¬ (-1 : Int) ≥ 0)]
    | some p =>
      rw [hp] at hparC
      dsimp only at hparC ⊢
      rw [hparC, if_pos rfl, if_pos (Int.natCast_nonneg p)]
      simp
  have hbadPre : ∀ j, isBad (PreSave w i spKF spMP spCam) j = isBad w j := by
    intro j
    unfold PreSave
    refine isBad_modKF_badEq w i _ ?_ j
    exact fun k => rfl
  have hub : ubcPairs (PreSave w i spKF spMP spCam)
      ((kf.conn.filter (fun p => spKF.contains p.1)).foldl
        (fun acc p => mapInsert ((fun x : Nat => x) p.1) p.2 acc) []) =
      ubcPairs w kf.conn :=
    (ubcPairs_congr hbadPre _).trans (congrArg (ubcPairs w) hconnEq)
  exact ⟨hConn.trans hconnEq, hPar.trans (congrArg some hparEq),
    hCh.trans (congrArg some hchEq), hLp.trans (congrArg some hlpEq),
    hMg.trans (congrArg some hmgEq),
    hOrd.trans (congrArg (List.map (·.2)) hub),
    hOrdW.trans (congrArg (List.map (·.1)) hub)⟩

theorem preSave_postLoad_roundtrip_witness :
    getConn (PostLoad (PreSave wC8 1 [2, 3, 4, 5, 6, 9] [] []) 1 (fun x => x) (fun x => x)
      (fun x => x)) 1 = [(2, 7), (3, 4)] ∧
    getParent (PostLoad (PreSave wC8 1 [2, 3, 4, 5, 6, 9] [] []) 1 (fun x => x) (fun x => x)
      (fun x => x)) 1 = some (some 9) ∧
    getChildren (PostLoad (PreSave wC8 1 [2, 3, 4, 5, 6, 9] [] []) 1 (fun x => x) (fun x => x)
      (fun x => x)) 1 = some [4, 5] := by
  have h := preSave_postLoad_roundtrip wC8 1
    { conn := [(2, 7), (3, 4)]
      parent := some 9
      children := [4, 5]
      loopEdges := [6]
      mergeEdges := [] }
    [2, 3, 4, 5, 6, 9] [] [] (by decide) (by decide) (by decide) (by decide) (by decide)
    (by decide) (by decide) (by decide) (by decide) (by decide)
  exact ⟨h.1, h.2.1, h.2.2.1⟩

/-- C3: `SetBadFlag` on a guarded non-root keyframe only sets the
to-be-erased flag (no deletion, no other state change); a subsequent
`SetErase` performs the deferred deletion when the loop-edge set is empty,
and otherwise leaves the keyframe alive, still guarded and still pending
deletion. -/
theorem setBadFlag_deferred (w : World) (i : Nat) (kf : KF)
    (hfind : w.kfs i = some kf) (hroot : i ≠ w.initKFid)
    (hguard : kf.notErase = true) (hbad : kf.bad = false) :
    SetBadFlag w i = modKF w i (fun k => { k with toBeErased := true }) ∧
    isBad (SetBadFlag w i) i = false ∧
    (kf.loopEdges = [] → isBad (SetErase (SetBadFlag w i) i) i = true) ∧
    (kf.loopEdges ≠ [] →
      isBad (SetErase (SetBadFlag w i) i) i = false ∧
      (SetErase (SetBadFlag w i) i).kfs i = some { kf with toBeErased := true }) := by
  have h1 := setBadFlag_guarded w i kf hfind hroot hguard
  have hw1 : (SetBadFlag w i).kfs i = some { kf with toBeErased := true } := by
    rw [h1, modKF_kfs]
    simp [hfind]
  refine ⟨h1, ?_, ?_, ?_⟩
  · unfold isBad
    rw [hw1]
    exact hbad
  · intro hle
    unfold SetErase
    rw [hw1]
    dsimp only
    rw [if_pos hle]
    exact setBadFlag_full_isBad _ i { kf with toBeErased := true, notErase := false }
      (by rw [modKF_kfs]; simp [hw1])
      (by rw [modKF_initKFid, h1, modKF_initKFid]; exact hroot) rfl
  · intro hne
    have hroot1 : i ≠ (SetBadFlag w i).initKFid := by
      rw [h1, modKF_initKFid]; exact hroot
    have hstep : SetBadFlag (SetBadFlag w i) i =
        modKF (SetBadFlag w i) i (fun k => { k with toBeErased := true }) :=
      setBadFlag_guarded _ i _ hw1 hroot1 hguard
    have hse : SetErase (SetBadFlag w i) i = SetBadFlag (SetBadFlag w i) i := by
      unfold SetErase
      rw [hw1]
      dsimp only
      rw [if_neg hne]
      simp
    rw [hse, hstep]
    constructor
    · unfold isBad
      rw [modKF_kfs]
      simp [hw1, hbad]
    · rw [modKF_kfs]
      simp [hw1]

/-- C7: in both `ImuCamPose::Update` and `ImuCamPose::UpdateW` the
normalization statement passes the rotation by const reference and its
returned matrix is discarded, so the updated state does not depend on the
normalization function at all — the retained rotation is never replaced by
its SVD-based orthonormalization (the update counters do reset every 3rd
resp. 5th call, and `UpdateW` does zero the out-of-plane entries of
`DR`). -/
theorem imu_update_normalization_discarded :
    (∀ (e : (Fin 3 → ℚ) → M3) (n₁ n₂ : M3 → M3) (st : ImuPoseState) (u : Fin 6 → ℚ),
      ImuCamPose.Update e n₁ st u = ImuCamPose.Update e n₂ st u) ∧
    (∀ (e : (Fin 3 → ℚ) → M3) (n₁ n₂ : M3 → M3) (st : ImuPoseState) (u : Fin 6 → ℚ),
      ImuCamPose.UpdateW e n₁ st u = ImuCamPose.UpdateW e n₂ st u) := by
  constructor <;> intro e n₁ n₂ st u <;> rfl

/-- The `nmax` / `pKFmax` fold of `UpdateConnections` either keeps its
accumulator or returns a scanned (tally, id) pair. -/
theorem ucMax_fold_cases :
    ∀ (l : List (Nat × Int)) (acc : Int × Option Nat),
      l.foldl (fun acc p => if p.2 > acc.1 then (p.2, some p.1) else acc) acc = acc ∨
      ∃ p ∈ l, l.foldl (fun acc p => if p.2 > acc.1 then (p.2, some p.1) else acc) acc =
        (p.2, some p.1) := by
  intro l
  induction l with
  | nil => intro acc; exact Or.inl rfl
  | cons q t ih =>
    intro acc
    rw [List.foldl_cons]
    by_cases hq : q.2 > acc.1
    · rw [if_pos hq]
      rcases ih (q.2, some q.1) with h | ⟨p, hp, he⟩
      · exact Or.inr ⟨q, List.mem_cons_self q t, h⟩
      · exact Or.inr ⟨p, List.mem_cons_of_mem _ hp, he⟩
    · rw [if_neg hq]
      rcases ih acc with h | ⟨p, hp, he⟩
      · exact Or.inl h
      · exact Or.inr ⟨p, List.mem_cons_of_mem _ hp, he⟩

/-- When `pKFmax` is set, the tracked maximum is an entry of the tally
map. -/
theorem ucMax_mem (counter : List (Nat × Int)) (b : Nat)
    (h : (ucMax counter).2 = some b) : (b, (ucMax counter).1) ∈ counter := by
  unfold ucMax at h ⊢
  rcases ucMax_fold_cases counter (0, none) with he | ⟨p, hp, he⟩
  · rw [he] at h
    exact Option.noConfusion h
  · rw [he] at h ⊢
    have hpb : p.1 = b := Option.some.inj h
    dsimp only
    rw [← hpb]
    exact hp

theorem mapLookup_eq_of_mem_nodup {k : Nat} {v : Int} :
    ∀ {l : List (Nat × Int)}, l.Pairwise (fun p q => p.1 ≠ q.1) → (k, v) ∈ l →
      mapLookup k l = some v := by
  intro l
  induction l with
  | nil => intro _ h; exact absurd h (List.not_mem_nil _)
  | cons q t ih =>
    intro hnd hm
    rw [List.pairwise_cons] at hnd
    rw [mapLookup_cons]
    rcases List.mem_cons.mp hm with h | h
    · rw [← h]
      dsimp only
      rw [if_pos rfl]
    · rw [if_neg (hnd.1 (k, v) h)]
      exact ih hnd.2 h

/-- C1 (amended): after `UpdateConnections` on keyframe `i`, `i` stores the
full shared-observation tally for every counted neighbor `b`, and the
weight is symmetric both for every neighbor whose tally reaches the
promotion threshold 15 and for the single fallback-promoted top neighbor
when no tally reaches it (`GetWeight(i,b) = GetWeight(b,i) = tally`); any
other sub-threshold neighbor receives no reciprocal `AddConnection`, so
its side of the weight is not updated (see the counterexample). -/
theorem updateConnections_tally_weights (w : World) (i : Nat) (kf : KF) (b : Nat) (c : Int)
    (hfind : w.kfs i = some kf) (hc : mapLookup b (KFcounterOf w i kf) = some c) :
    getWeight (UpdateConnections w i) i b = c ∧
    (15 ≤ c → getWeight (UpdateConnections w i) b i = c) ∧
    ((((KFcounterOf w i kf).filter (fun p => p.2 ≥ 15)).map (fun p => (p.2, p.1)) = [] ∧
        (ucMax (KFcounterOf w i kf)).2 = some b) →
      getWeight (UpdateConnections w i) b i = c) := by
  have hmem := mapLookup_mem hc
  have hprop := KFcounterOf_prop w i kf _ hmem
  have hbne : b ≠ i := hprop.1
  have hbsome : (w.kfs b).isSome := hprop.2
  have hnd : (KFcounterOf w i kf).Pairwise (fun p q => p.1 ≠ q.1) :=
    (KFcounterOf_sorted w i kf).imp (fun h => Nat.ne_of_lt h)
  have hnonnil : KFcounterOf w i kf ≠ [] := by
    intro h
    rw [h] at hmem
    simp at hmem
  have hcontra15 : 15 ≤ c →
      ((KFcounterOf w i kf).filter (fun p => p.2 ≥ 15)).map (fun p => (p.2, p.1)) ≠ [] := by
    intro hth hv
    have hmemf : (b, c) ∈ (KFcounterOf w i kf).filter (fun p => p.2 ≥ 15) :=
      List.mem_filter.mpr ⟨hmem, by simpa using hth⟩
    have hmm : ((c : Int), b) ∈
        ((KFcounterOf w i kf).filter (fun p => p.2 ≥ 15)).map (fun p => (p.2, p.1)) :=
      List.mem_map.mpr ⟨(b, c), hmemf, rfl⟩
    rw [hv] at hmm
    simp at hmm
  unfold UpdateConnections
  rw [hfind]
  dsimp only
  rw [if_neg hnonnil]
  by_cases hv : ((KFcounterOf w i kf).filter (fun p => p.2 ≥ 15)).map
      (fun p => (p.2, p.1)) = ([] : List (Int × Nat))
  · rw [if_pos hv]
    cases hmax : (ucMax (KFcounterOf w i kf)).2 with
    | none =>
      dsimp only
      have hs : ((ucPromote w i (KFcounterOf w i kf)).kfs i).isSome := by
        rw [kfsIsSome_ucPromote, hfind]
        rfl
      refine ⟨?_, ?_, ?_⟩
      · rw [getWeight_ucFirstConn, getWeight_ucAssign_self _ _ _ _ _ hs, hc]
        rfl
      · intro hth
        exact absurd hv (hcontra15 hth)
      · rintro ⟨-, h2⟩
        exact Option.noConfusion h2
    | some pm =>
      dsimp only
      have hs : ((AddConnection (ucPromote w i (KFcounterOf w i kf)) pm i
          (ucMax (KFcounterOf w i kf)).1).kfs i).isSome := by
        rw [kfsIsSome_addConnection, kfsIsSome_ucPromote, hfind]
        rfl
      refine ⟨?_, ?_, ?_⟩
      · rw [getWeight_ucFirstConn, getWeight_ucAssign_self _ _ _ _ _ hs, hc]
        rfl
      · intro hth
        exact absurd hv (hcontra15 hth)
      · rintro ⟨-, h2⟩
        have hpmb : pm = b := Option.some.inj h2
        rw [getWeight_ucFirstConn, getWeight_ucAssign_other _ _ _ _ hbne, hpmb]
        have hmem2 : (b, (ucMax (KFcounterOf w i kf)).1) ∈ KFcounterOf w i kf := by
          rw [← hpmb]
          exact ucMax_mem _ pm hmax
        have hlk : mapLookup b (KFcounterOf w i kf) =
            some ((ucMax (KFcounterOf w i kf)).1) :=
          mapLookup_eq_of_mem_nodup hnd hmem2
        have hceq : (ucMax (KFcounterOf w i kf)).1 = c :=
          Option.some.inj (hlk.symm.trans hc)
        have hsome : ((ucPromote w i (KFcounterOf w i kf)).kfs b).isSome := by
          rw [kfsIsSome_ucPromote]
          exact hbsome
        rw [getWeight_addConnection_self _ _ _ _ hsome]
        exact hceq
  · rw [if_neg hv]
    dsimp only
    have hs : ((ucPromote w i (KFcounterOf w i kf)).kfs i).isSome := by
      rw [kfsIsSome_ucPromote, hfind]
      rfl
    refine ⟨?_, ?_, ?_⟩
    · rw [getWeight_ucFirstConn, getWeight_ucAssign_self _ _ _ _ _ hs, hc]
      rfl
    · intro hth
      rw [getWeight_ucFirstConn, getWeight_ucAssign_other _ _ _ _ hbne]
      exact getWeight_ucPromote i b c hth _ w hnd hmem hbsome
    · rintro ⟨h1, -⟩
      exact absurd h1 hv

/-- Witness for C1 (amended): at `wC1b` the single neighbor reaches the
threshold and both conclusions fire; at `w0C1` no tally reaches the
threshold and keyframe 3 is the fallback-promoted top neighbor, so the
fallback conclusion fires. -/
theorem updateConnections_tally_weights_witness :
    ((wC1b.kfs 1 = some kfA15 ∧ mapLookup 2 (KFcounterOf wC1b 1 kfA15) = some 15) ∧
      15 ≤ (15 : Int) ∧
      getWeight (UpdateConnections wC1b 1) 1 2 = 15 ∧
      getWeight (UpdateConnections wC1b 1) 2 1 = 15) ∧
    ((w0C1.kfs 1 = some { mapPoints := [some 10, some 11, some 12] } ∧
        mapLookup 3 (KFcounterOf w0C1 1 { mapPoints := [some 10, some 11, some 12] }) =
          some 2 ∧
        ((KFcounterOf w0C1 1 { mapPoints := [some 10, some 11, some 12] }).filter
          (fun p => p.2 ≥ 15)).map (fun p => (p.2, p.1)) = [] ∧
        (ucMax (KFcounterOf w0C1 1 { mapPoints := [some 10, some 11, some 12] })).2 =
          some 3) ∧
      getWeight (UpdateConnections w0C1 1) 1 3 = 2 ∧
      getWeight (UpdateConnections w0C1 1) 3 1 = 2) :=
  ⟨⟨⟨by decide, by decide⟩, by decide,
    (updateConnections_tally_weights wC1b 1 kfA15 2 15 (by decide) (by decide)).1,
    (updateConnections_tally_weights wC1b 1 kfA15 2 15 (by decide) (by decide)).2.1
      (by decide)⟩,
   ⟨⟨by decide, by decide, by decide, by decide⟩,
    (updateConnections_tally_weights w0C1 1 { mapPoints := [some 10, some 11, some 12] }
      3 2 (by decide) (by decide)).1,
    (updateConnections_tally_weights w0C1 1 { mapPoints := [some 10, some 11, some 12] }
      3 2 (by decide) (by decide)).2.2 ⟨by decide, by decide⟩⟩⟩

/-- C1 counterexample: in `w0C1` keyframe 1 shares one landmark with
keyframe 2 (tally 1, below the threshold); after `UpdateConnections(1)`
the weight is stored on keyframe 1's side only, so
`GetWeight(1,2) = 1 ≠ 0 = GetWeight(2,1)`. -/
theorem updateConnections_symmetry_counterexample :
    getWeight (UpdateConnections w0C1 1) 1 2 = 1 ∧
    getWeight (UpdateConnections w0C1 1) 2 1 = 0 ∧ (1 : Int) ≠ 0 := by decide

/-- Witness for C3 at the concrete guarded world `guardW`. -/
theorem setBadFlag_deferred_witness :
    (guardW.kfs 1 = some { notErase := true } ∧ (1 : Nat) ≠ guardW.initKFid ∧
      ({ notErase := true } : KF).notErase = true ∧ ({ notErase := true } : KF).bad = false) ∧
    (SetBadFlag guardW 1 = modKF guardW 1 (fun k => { k with toBeErased := true }) ∧
      isBad (SetBadFlag guardW 1) 1 = false ∧
      (({ notErase := true } : KF).loopEdges = [] →
        isBad (SetErase (SetBadFlag guardW 1) 1) 1 = true) ∧
      (({ notErase := true } : KF).loopEdges ≠ [] →
        isBad (SetErase (SetBadFlag guardW 1) 1) 1 = false ∧
        (SetErase (SetBadFlag guardW 1) 1).kfs 1 =
          some { notErase := true, toBeErased := true })) :=
  ⟨⟨rfl, by decide, rfl, rfl⟩,
    setBadFlag_deferred guardW 1 { notErase := true } rfl (by decide) rfl rfl⟩

/-- In both degenerate branches — cosine outside the arccos domain, or sine
below the 1e-5 threshold — `logSO3` returns the unscaled
antisymmetric-part vector `w`. -/
theorem logSO3_wvec_aux (R : Matrix (Fin 3) (Fin 3) ℝ)
    (h : 1 < |cosTheta R| ∨
      (|cosTheta R| ≤ 1 ∧ |Real.sin (Real.arccos (cosTheta R))| < 1e-5)) :
    logSO3 R = wvec R := by
  unfold logSO3
  rcases h with h | ⟨h1, h2⟩
  · rw [if_pos h]
  · rw [if_neg (not_lt.mpr h1)]
    dsimp only
    rw [if_pos h2]

/-- C6 (amended): in both degenerate cases — `(trace(R)-1)/2` outside the
arccos domain, or the sine of the recovered angle below the 1e-5 threshold
— `logSO3` returns the unscaled antisymmetric-part vector `w` (the
small-angle approximation), which need not be the zero vector. -/
theorem logSO3_degenerate (R : Matrix (Fin 3) (Fin 3) ℝ)
    (h : 1 < |cosTheta R| ∨
      (|cosTheta R| ≤ 1 ∧ |Real.sin (Real.arccos (cosTheta R))| < 1e-5)) :
    logSO3 R = wvec R :=
  logSO3_wvec_aux R h

/-- Witness for C6 at the identity matrix (cosine exactly 1, sine of the
recovered angle exactly 0). -/
theorem logSO3_degenerate_witness :
    (|cosTheta (1 : Matrix (Fin 3) (Fin 3) ℝ)| ≤ 1 ∧
      |Real.sin (Real.arccos (cosTheta (1 : Matrix (Fin 3) (Fin 3) ℝ)))| < 1e-5) ∧
    logSO3 (1 : Matrix (Fin 3) (Fin 3) ℝ) = wvec (1 : Matrix (Fin 3) (Fin 3) ℝ) := by
  have hc : cosTheta (1 : Matrix (Fin 3) (Fin 3) ℝ) = 1 := by
    unfold cosTheta mat3trace
    norm_num [Matrix.one_apply_eq]
  have h1 : |cosTheta (1 : Matrix (Fin 3) (Fin 3) ℝ)| ≤ 1 := by
    rw [hc]; norm_num
  have hs : |Real.sin (Real.arccos (cosTheta (1 : Matrix (Fin 3) (Fin 3) ℝ)))| < 1e-5 := by
    rw [hc, Real.arccos_one, Real.sin_zero]
    norm_num
  exact ⟨⟨h1, hs⟩, logSO3_degenerate 1 (Or.inr ⟨h1, hs⟩)⟩

/-- C6 counterexample: `Rsmall` is an exact rotation matrix (orthogonal,
determinant 1) whose angle has sine 1e-6 < 1e-5, yet `logSO3` returns
(0, 0, 1e-6), not the zero vector the claim requires. -/
theorem logSO3_zero_counterexample :
    (Matrix.transpose Rsmall * Rsmall = 1 ∧ Rsmall.det = 1) ∧
    |cosTheta Rsmall| ≤ 1 ∧
    |Real.sin (Real.arccos (cosTheta Rsmall))| < 1e-5 ∧
    logSO3 Rsmall = (0, 0, 1 / 1000000) ∧
    ((0, 0, 1 / 1000000) : ℝ × ℝ × ℝ) ≠ ((0, 0, 0) : ℝ × ℝ × ℝ) := by
  have hnn : (0 : ℝ) ≤ 1 - 1 / 1000000000000 := by norm_num
  have hc2 : cSmall * cSmall = 1 - 1 / 1000000000000 := Real.mul_self_sqrt hnn
  have hcpos : (0 : ℝ) ≤ cSmall := Real.sqrt_nonneg _
  have hcle : cSmall ≤ 1 := by
    rw [show (1 : ℝ) = Real.sqrt 1 by rw [Real.sqrt_one]]
    exact Real.sqrt_le_sqrt (by norm_num)
  have hR : Rsmall = Matrix.of ![![cSmall, -sSmall, 0], ![sSmall, cSmall, 0], ![0, 0, 1]] := rfl
  have hct : cosTheta Rsmall = cSmall := by
    unfold cosTheta mat3trace
    rw [hR]
    simp
    rw [show (0.5 : ℝ) = 1 / 2 by norm_num]
    ring
  have habs : |cosTheta Rsmall| ≤ 1 := by
    rw [hct, abs_of_nonneg hcpos]
    exact hcle
  have hsin : Real.sin (Real.arccos (cosTheta Rsmall)) = 1 / 1000000 := by
    rw [hct, Real.sin_arccos]
    have h1 : 1 - cSmall ^ 2 = 1 / 1000000000000 := by
      rw [sq, hc2]
      norm_num
    rw [h1, show (1 / 1000000000000 : ℝ) = (1 / 1000000) ^ 2 by norm_num,
      Real.sqrt_sq (by norm_num)]
  have hslt : |Real.sin (Real.arccos (cosTheta Rsmall))| < 1e-5 := by
    rw [hsin, abs_of_nonneg (by norm_num : (0 : ℝ) ≤ 1 / 1000000)]
    norm_num
  have hw : wvec Rsmall = (0, 0, 1 / 1000000) := by
    unfold wvec
    rw [hR]
    simp [sSmall]
  refine ⟨⟨?_, ?_⟩, habs, hslt, ?_, ?_⟩
  · have ht : Matrix.transpose Rsmall =
        Matrix.of ![![cSmall, sSmall, 0], ![-sSmall, cSmall, 0], ![0, 0, 1]] := by
      rw [hR]
      ext i j
      fin_cases i <;> fin_cases j <;> rfl
    rw [ht, hR, Matrix.mul_fin_three, Matrix.one_fin_three]
    simp only [sSmall]
    congr 1
    refine Matrix.vec3_eq (Matrix.vec3_eq ?_ ?_ ?_) (Matrix.vec3_eq ?_ ?_ ?_)
      (Matrix.vec3_eq ?_ ?_ ?_)
    · linear_combination hc2
    · ring
    · ring
    · ring
    · linear_combination hc2
    · ring
    · ring
    · ring
    · ring
  · rw [Matrix.det_fin_three, hR]
    simp [sSmall]
    linear_combination hc2
  · rw [logSO3_wvec_aux Rsmall (Or.inr ⟨habs, hslt⟩)]
    exact hw
  · intro hcontra
    have h0 := congrArg (fun p : ℝ × ℝ × ℝ => p.2.2) hcontra
    norm_num at h0

/-- C5 (amended): both reprojection helpers return failure for every
strictly negative camera-frame depth, and — when the depth check passes —
for every pinhole projection strictly outside the calibrated bounds; they
never write any keyframe state.  (Depth exactly zero is *not* rejected by
the depth test, see the counterexample.) -/
theorem projectPoint_failure (kf : KFCam) (P : Vec3Q) :
    (camDepth kf P < 0 →
      ProjectPointDistort kf P = none ∧ ProjectPointUnDistort kf P = none) ∧
    (¬ camDepth kf P < 0 →
      (pinholeU kf P < kf.mnMinX ∨ pinholeU kf P > kf.mnMaxX ∨
        pinholeV kf P < kf.mnMinY ∨ pinholeV kf P > kf.mnMaxY) →
      ProjectPointDistort kf P = none ∧ ProjectPointUnDistort kf P = none) ∧
    (ProjectPointDistortRun kf P).1 = kf ∧ (ProjectPointUnDistortRun kf P).1 = kf := by
  refine ⟨?_, ?_, rfl, rfl⟩
  · intro h
    unfold camDepth at h
    constructor
    · unfold ProjectPointDistort
      dsimp only
      rw [if_pos h]
    · unfold ProjectPointUnDistort
      dsimp only
      rw [if_pos h]
  · intro h hb
    unfold camDepth at h
    unfold pinholeU pinholeV camDepth at hb
    constructor
    · unfold ProjectPointDistort
      dsimp only
      rw [if_neg h]
      rcases hb with h1 | h1 | h1 | h1
      · rw [if_pos (Or.inl h1)]
      · rw [if_pos (Or.inr h1)]
      all_goals
        by_cases hu : kf.fx * (addV (matVec kf.rcw P) kf.tcw).1 *
            (1 / (addV (matVec kf.rcw P) kf.tcw).2.2) + kf.cx < kf.mnMinX ∨
            kf.fx * (addV (matVec kf.rcw P) kf.tcw).1 *
            (1 / (addV (matVec kf.rcw P) kf.tcw).2.2) + kf.cx > kf.mnMaxX
      · rw [if_pos hu]
      · rw [if_neg hu, if_pos (Or.inl h1)]
      · rw [if_pos hu]
      · rw [if_neg hu, if_pos (Or.inr h1)]
    · unfold ProjectPointUnDistort
      dsimp only
      rw [if_neg h]
      rcases hb with h1 | h1 | h1 | h1
      · rw [if_pos (Or.inl h1)]
      · rw [if_pos (Or.inr h1)]
      all_goals
        by_cases hu : kf.fx * (addV (matVec kf.rcw P) kf.tcw).1 *
            (1 / (addV (matVec kf.rcw P) kf.tcw).2.2) + kf.cx < kf.mnMinX ∨
            kf.fx * (addV (matVec kf.rcw P) kf.tcw).1 *
            (1 / (addV (matVec kf.rcw P) kf.tcw).2.2) + kf.cx > kf.mnMaxX
      · rw [if_pos hu]
      · rw [if_neg hu, if_pos (Or.inl h1)]
      · rw [if_pos hu]
      · rw [if_neg hu, if_pos (Or.inr h1)]

/-- Witness for C5 (amended) at `cam0`: a point behind the camera and a
point projecting far right of the image. -/
theorem projectPoint_failure_witness :
    (camDepth cam0 (0, 0, -1) < 0 ∧
      ProjectPointDistort cam0 (0, 0, -1) = none ∧
      ProjectPointUnDistort cam0 (0, 0, -1) = none) ∧
    (¬ camDepth cam0 (500, 0, 1) < 0 ∧
      (pinholeU cam0 (500, 0, 1) < cam0.mnMinX ∨ pinholeU cam0 (500, 0, 1) > cam0.mnMaxX ∨
        pinholeV cam0 (500, 0, 1) < cam0.mnMinY ∨ pinholeV cam0 (500, 0, 1) > cam0.mnMaxY) ∧
      ProjectPointDistort cam0 (500, 0, 1) = none ∧
      ProjectPointUnDistort cam0 (500, 0, 1) = none) := by
  have hd1 : camDepth cam0 (0, 0, -1) < 0 := by
    norm_num [camDepth, cam0, matVec, addV, dot3]
  have hd2 : ¬ camDepth cam0 (500, 0, 1) < 0 := by
    norm_num [camDepth, cam0, matVec, addV, dot3]
  have hu2 : pinholeU cam0 (500, 0, 1) > cam0.mnMaxX := by
    norm_num [pinholeU, camDepth, cam0, matVec, addV, dot3]
  exact ⟨⟨hd1, (projectPoint_failure cam0 (0, 0, -1)).1 hd1⟩,
    ⟨hd2, Or.inr (Or.inl hu2),
      (projectPoint_failure cam0 (500, 0, 1)).2.1 hd2 (Or.inr (Or.inl hu2))⟩⟩

/-- C5 counterexample: a landmark at camera-frame depth exactly zero — a
non-positive depth the claim says must be rejected — is *accepted* by both
helpers (the source checks `PcZ < 0.0f`, so a zero depth flows into the
division and the NaN coordinates pass both bound checks). -/
theorem projectPoint_zero_depth_counterexample :
    camDepth cam0 (0, 0, 0) = 0 ∧
    ProjectPointDistort cam0 (0, 0, 0) = some (100, 100) ∧
    ProjectPointUnDistort cam0 (0, 0, 0) = some (100, 100) := by
  refine ⟨by norm_num [camDepth, cam0, matVec, addV, dot3], ?_, ?_⟩ <;>
    norm_num [ProjectPointDistort, ProjectPointUnDistort, cam0, matVec, addV, dot3]

end OrbSlam3
